import Mathlib

/-!
Verification of the chapter-boundary segmentation engine of the StoryGenius
repository. The Python sources (file_processor.py and
enhanced_character_extractor.py) are shallowly embedded: text is List Char,
Python string operations become list functions, and the external
text-generation collaborator is an explicitly passed response function.
-/

namespace StoryGenius

/-- Text is modelled as a list of characters. -/
abbrev Str := List Char

/-- Convert a Lean string literal to the character-list model. -/
def toCl (s : String) : Str := s.data

/-- Whitespace characters as recognized by Python str.strip and the regex
class for whitespace (ASCII range; the rare non-ASCII Unicode spaces are not
used by the repository and are not modelled). -/
def pyIsSpace (c : Char) : Bool :=
  c = ' ' || c = '\t' || c = '\n' || c = '\r' || c = '\x0b' || c = '\x0c'

/-- Python str.strip with no arguments: remove leading and trailing
whitespace. -/
def pyStrip (l : Str) : Str :=
  ((l.dropWhile pyIsSpace).reverse.dropWhile pyIsSpace).reverse

/-- Python slicing t[a:b] for nonnegative bounds. -/
def pySlice (l : Str) (a b : Nat) : Str := (l.drop a).take (b - a)

/-- Remove every whitespace character. Concatenations are compared after this
normalization, so that inserted separators and trimmed edges are ignored. -/
def removeWs (l : Str) : Str := l.filter (fun c => !pyIsSpace c)

/-- Python sep.join for a list of strings. -/
def joinSep (sep : Str) : List Str → Str
  | [] => []
  | [l] => l
  | l :: ls => l ++ sep ++ joinSep sep ls

/-- Python text.split for a one-character separator, specialized to the
newline splits used by clean_text. -/
def splitNl : Str → List Str
  | [] => [[]]
  | c :: rest =>
    if c = '\n' then [] :: splitNl rest
    else
      match splitNl rest with
      | [] => [[c]]
      | h :: t => (c :: h) :: t

theorem takeWhile_len_le (p : Char → Bool) : ∀ l : Str, (l.takeWhile p).length ≤ l.length := by
  intro l
  induction l with
  | nil => simp
  | cons a t ih => by_cases h : p a <;> simp [List.takeWhile_cons, h] <;> omega

/-- The regex substitution collapsing runs of three or more newlines to
exactly two, as in re.sub of a newline run onto two newlines. -/
def collapseNewlines : Str → Str
  | [] => []
  | c :: rest =>
    if c = '\n' then
      if 2 ≤ (rest.takeWhile (fun d => d = '\n')).length then
        '\n' :: '\n' :: collapseNewlines (rest.drop (rest.takeWhile (fun d => d = '\n')).length)
      else c :: collapseNewlines rest
    else c :: collapseNewlines rest
termination_by l => l.length
decreasing_by
  · have hle := takeWhile_len_le (fun d => d = '\n') rest
    simp only [List.length_cons, List.length_drop]
    omega
  · simp
  · simp

/-- The non-blank stripped lines of a text: FileProcessor._clean_text keeps
line.strip() for every line whose strip is non-empty. -/
def cleanedLines (t : Str) : List Str :=
  ((splitNl t).map pyStrip).filter (fun l => l ≠ [])

/-- FileProcessor._clean_text: split into lines, keep stripped non-blank
lines, rejoin with single newlines, then collapse runs of three or more
newlines. -/
def clean_text (t : Str) : Str :=
  if t = [] then []
  else collapseNewlines (joinSep ['\n'] (cleanedLines t))

/-- Whether the text contains two consecutive newline characters. -/
def hasDoubleNewline : Str → Bool
  | [] => false
  | c :: rest => (c = '\n' && rest.head? = some '\n') || hasDoubleNewline rest

theorem head?_dropWhile_notP (p : Char → Bool) :
    ∀ l : Str, ∀ c, (l.dropWhile p).head? = some c → p c = false := by
  intro l
  induction l with
  | nil => simp
  | cons a t ih =>
    intro c hc
    by_cases h : p a
    · exact ih c (by simpa [List.dropWhile_cons, h] using hc)
    · rw [List.dropWhile_cons, if_neg (by simpa using h)] at hc
      obtain rfl : a = c := by simpa using hc
      simpa using h

theorem dropWhile_eq_self_of_head (p : Char → Bool) (l : Str)
    (h : ∀ c, l.head? = some c → p c = false) : l.dropWhile p = l := by
  cases l with
  | nil => rfl
  | cons a t => simp [List.dropWhile_cons, h a rfl]

theorem getLast?_dropWhile (p : Char → Bool) :
    ∀ z : Str, z.dropWhile p = [] ∨ (z.dropWhile p).getLast? = z.getLast? := by
  intro z
  induction z with
  | nil => left; rfl
  | cons a t ih =>
    by_cases h : p a
    · simp only [List.dropWhile_cons, h, if_true]
      by_cases hz : t.dropWhile p = []
      · left; exact hz
      · right
        rcases ih with h0 | heq
        · exact absurd h0 hz
        · rw [heq]
          cases t with
          | nil => exact absurd rfl hz
          | cons b t' => simp
    · right
      simp [List.dropWhile_cons, h]

theorem pyStrip_idem (l : Str) : pyStrip (pyStrip l) = pyStrip l := by
  unfold pyStrip
  set A := l.dropWhile pyIsSpace with hA
  set B := A.reverse.dropWhile pyIsSpace with hB
  have hBhead : ∀ c, B.head? = some c → pyIsSpace c = false := by
    intro c hc; exact head?_dropWhile_notP pyIsSpace A.reverse c (by rw [← hB]; exact hc)
  have hBlast : ∀ c, B.reverse.head? = some c → pyIsSpace c = false := by
    intro c hc
    rw [List.head?_reverse] at hc
    rcases getLast?_dropWhile pyIsSpace A.reverse with h0 | heq
    · rw [← hB] at h0; rw [h0] at hc; simp at hc
    · rw [← hB] at heq
      rw [heq] at hc
      rw [List.getLast?_reverse] at hc
      exact head?_dropWhile_notP pyIsSpace l c (by rw [← hA]; exact hc)
  rw [dropWhile_eq_self_of_head pyIsSpace B.reverse hBlast]
  rw [List.reverse_reverse]
  rw [dropWhile_eq_self_of_head pyIsSpace B hBhead]

theorem pyStrip_subset (l : Str) : ∀ c, c ∈ pyStrip l → c ∈ l := by
  intro c hc
  unfold pyStrip at hc
  rw [List.mem_reverse] at hc
  have h1 := List.dropWhile_subset _ hc
  rw [List.mem_reverse] at h1
  exact List.dropWhile_subset _ h1

theorem splitNl_ne_nil : ∀ l : Str, splitNl l ≠ [] := by
  intro l
  cases l with
  | nil => simp [splitNl]
  | cons c rest =>
    by_cases h : c = '\n'
    · simp [splitNl, h]
    · simp only [splitNl, if_neg h]
      cases splitNl rest <;> simp

theorem mem_splitNl_no_nl : ∀ l : Str, ∀ pc ∈ splitNl l, '\n' ∉ pc := by
  intro l
  induction l with
  | nil => intro pc hpc; simp [splitNl] at hpc; simp [hpc]
  | cons c rest ih =>
    intro pc hpc
    by_cases h : c = '\n'
    · simp only [splitNl, if_pos h, List.mem_cons] at hpc
      rcases hpc with rfl | hpc
      · simp
      · exact ih pc hpc
    · simp only [splitNl, if_neg h] at hpc
      rcases hsr : splitNl rest with _ | ⟨hd, tl⟩
      · exact absurd hsr (splitNl_ne_nil rest)
      · rw [hsr] at hpc
        rcases List.mem_cons.mp hpc with rfl | hpc2
        · intro hmem
          rcases List.mem_cons.mp hmem with rfl | hmem2
          · exact h rfl
          · exact ih hd (by rw [hsr]; exact List.mem_cons_self hd tl) hmem2
        · exact ih pc (by rw [hsr]; exact List.mem_cons_of_mem hd hpc2)

/-- Splitting a text that extends a newline-free block: the block is glued
onto the first piece of the split of the remainder. -/
theorem splitNl_append_no_nl : ∀ l r : Str, '\n' ∉ l → ∀ h t, splitNl r = h :: t →
    splitNl (l ++ r) = (l ++ h) :: t := by
  intro l
  induction l with
  | nil => intro r _ h t hr; simpa using hr
  | cons a l' ih =>
    intro r hnl h t hr
    have ha : a ≠ '\n' := by
      intro he; exact hnl (he ▸ List.mem_cons_self a l')
    have hl' : '\n' ∉ l' := fun hm => hnl (List.mem_cons_of_mem a hm)
    have hthis := ih r hl' h t hr
    show splitNl (a :: (l' ++ r)) = (a :: (l' ++ h)) :: t
    rw [splitNl, if_neg ha]
    rw [hthis]

theorem splitNl_joinSep_good : ∀ ls : List Str, ls ≠ [] → (∀ pc ∈ ls, '\n' ∉ pc) →
    splitNl (joinSep ['\n'] ls) = ls := by
  intro ls
  induction ls with
  | nil => intro h; exact absurd rfl h
  | cons l rest ih =>
    intro _ hgood
    have hl : '\n' ∉ l := hgood l (List.mem_cons_self l rest)
    cases rest with
    | nil =>
      show splitNl (joinSep ['\n'] [l]) = [l]
      have : splitNl (l ++ ([] : Str)) = (l ++ []) :: [] :=
        splitNl_append_no_nl l [] hl [] [] rfl
      simpa [joinSep] using this
    | cons l2 rest2 =>
      have hrest : splitNl (joinSep ['\n'] (l2 :: rest2)) = l2 :: rest2 :=
        ih (by simp) (fun pc hpc => hgood pc (List.mem_cons_of_mem l hpc))
      have hmid : splitNl ('\n' :: joinSep ['\n'] (l2 :: rest2)) = [] :: l2 :: rest2 := by
        simp [splitNl, hrest]
      have := splitNl_append_no_nl l ('\n' :: joinSep ['\n'] (l2 :: rest2)) hl
        [] (l2 :: rest2) hmid
      simpa [joinSep] using this

theorem hdnl_append_of_no_nl : ∀ l r : Str, '\n' ∉ l →
    hasDoubleNewline (l ++ r) = hasDoubleNewline r := by
  intro l
  induction l with
  | nil => intro r _; rfl
  | cons a t ih =>
    intro r hnl
    have ha : a ≠ '\n' := fun he => hnl (he ▸ List.mem_cons_self a t)
    have ht : '\n' ∉ t := fun hm => hnl (List.mem_cons_of_mem a hm)
    show hasDoubleNewline (a :: (t ++ r)) = hasDoubleNewline r
    simp only [hasDoubleNewline]
    rw [ih r ht]
    simp [ha]

theorem joinSep_nl_no_double : ∀ ls : List Str,
    (∀ pc ∈ ls, pc ≠ [] ∧ '\n' ∉ pc) →
    hasDoubleNewline (joinSep ['\n'] ls) = false := by
  intro ls
  induction ls with
  | nil => intro _; rfl
  | cons l rest ih =>
    intro hgood
    obtain ⟨hlne, hlnl⟩ := hgood l (List.mem_cons_self l rest)
    cases rest with
    | nil =>
      show hasDoubleNewline (joinSep ['\n'] [l]) = false
      have : hasDoubleNewline (l ++ ([] : Str)) = hasDoubleNewline ([] : Str) :=
        hdnl_append_of_no_nl l [] hlnl
      simpa [joinSep] using this
    | cons l2 rest2 =>
      obtain ⟨h2ne, h2nl⟩ := hgood l2 (List.mem_cons_of_mem l (List.mem_cons_self l2 rest2))
      have hrest : hasDoubleNewline (joinSep ['\n'] (l2 :: rest2)) = false :=
        ih (fun pc hpc => hgood pc (List.mem_cons_of_mem l hpc))
      have hhead : (joinSep ['\n'] (l2 :: rest2)).head? ≠ some '\n' := by
        cases l2 with
        | nil => exact absurd rfl h2ne
        | cons c2 t2 =>
          have hc2 : c2 ≠ '\n' := fun he => h2nl (he ▸ List.mem_cons_self c2 t2)
          cases rest2 with
          | nil =>
            intro hcon
            simp [joinSep] at hcon
            exact hc2 hcon
          | cons l3 rest3 =>
            intro hcon
            simp [joinSep] at hcon
            exact hc2 hcon
      have hj : joinSep ['\n'] (l :: l2 :: rest2)
          = l ++ ('\n' :: joinSep ['\n'] (l2 :: rest2)) := by
        simp [joinSep, List.append_assoc]
      rw [hj, hdnl_append_of_no_nl l _ hlnl]
      rw [hasDoubleNewline, hrest, Bool.or_false]
      cases hcase : (joinSep ['\n'] (l2 :: rest2)).head? with
      | none => simp
      | some cj =>
        have hcj : cj ≠ '\n' := fun he => hhead (by rw [hcase, he])
        simp [hcj]

theorem collapseNewlines_eq_self : ∀ l : Str, hasDoubleNewline l = false →
    collapseNewlines l = l := by
  intro l
  induction l with
  | nil => intro _; simp [collapseNewlines]
  | cons c rest ih =>
    intro h
    rw [hasDoubleNewline, Bool.or_eq_false_iff] at h
    obtain ⟨h1, h2⟩ := h
    have hrest := ih h2
    by_cases hc : c = '\n'
    · have hhead : rest.head? ≠ some '\n' := by
        intro hcon
        rw [hc, hcon] at h1
        simp at h1
      have htw : (rest.takeWhile (fun d => d = '\n')).length = 0 := by
        cases rest with
        | nil => rfl
        | cons b t =>
          have hb : b ≠ '\n' := fun he => hhead (by rw [he]; simp)
          simp [List.takeWhile_cons, hb]
      rw [collapseNewlines, if_pos hc, if_neg (by simp [htw])]
      rw [hrest]
    · rw [collapseNewlines, if_neg hc, hrest]

theorem cleanedLines_good (t : Str) :
    ∀ pc ∈ cleanedLines t, pc ≠ [] ∧ '\n' ∉ pc ∧ pyStrip pc = pc := by
  intro pc hpc
  unfold cleanedLines at hpc
  rw [List.mem_filter] at hpc
  obtain ⟨hmem, hne⟩ := hpc
  rw [List.mem_map] at hmem
  obtain ⟨orig, horig, rfl⟩ := hmem
  refine ⟨by simpa using hne, ?_, pyStrip_idem orig⟩
  intro hmem2
  exact mem_splitNl_no_nl t orig horig (pyStrip_subset orig '\n' hmem2)

theorem joinSep_ne_nil_of_head (l : Str) (ls : List Str) (h : l ≠ []) :
    joinSep ['\n'] (l :: ls) ≠ [] := by
  cases ls with
  | nil => simpa [joinSep] using h
  | cons l2 rest => cases l with
    | nil => exact absurd rfl h
    | cons c t => simp [joinSep]

/-- Claim C9 helper: after one pass of clean_text the result is exactly the
single-newline join of its non-blank stripped lines, and the collapse step
changes nothing. -/
theorem clean_text_eq_join (t : Str) :
    clean_text t = joinSep ['\n'] (cleanedLines t) := by
  by_cases ht : t = []
  · subst ht; simp [clean_text, cleanedLines, splitNl, pyStrip, joinSep]
  · unfold clean_text
    rw [if_neg ht]
    apply collapseNewlines_eq_self
    apply joinSep_nl_no_double
    intro pc hpc
    obtain ⟨h1, h2, _⟩ := cleanedLines_good t pc hpc
    exact ⟨h1, h2⟩

/-- Clean lines of an already-cleaned text: recovering the pieces. -/
theorem cleanedLines_of_join (ls : List Str)
    (hgood : ∀ pc ∈ ls, pc ≠ [] ∧ '\n' ∉ pc ∧ pyStrip pc = pc) (hne : ls ≠ []) :
    cleanedLines (joinSep ['\n'] ls) = ls := by
  unfold cleanedLines
  rw [splitNl_joinSep_good ls hne (fun pc hpc => (hgood pc hpc).2.1)]
  have hmap : ls.map pyStrip = ls := by
    have h := List.map_congr_left (fun pc hpc => (hgood pc hpc).2.2)
    simpa using h
  rw [hmap]
  rw [List.filter_eq_self.mpr]
  intro pc hpc
  simpa using (hgood pc hpc).1

/-- Claim C9: normalization is idempotent — applying clean_text twice gives
the same result as applying it once. -/
theorem clean_text_idem (t : Str) : clean_text (clean_text t) = clean_text t := by
  rcases hls : cleanedLines t with _ | ⟨l, rest⟩
  · have h1 : clean_text t = [] := by rw [clean_text_eq_join, hls]; rfl
    rw [h1]
    simp [clean_text]
  · have hgood := cleanedLines_good t
    rw [hls] at hgood
    have h1 : clean_text t = joinSep ['\n'] (l :: rest) := by rw [clean_text_eq_join, hls]
    rw [h1, clean_text_eq_join, cleanedLines_of_join (l :: rest) hgood (by simp)]

/-- Claim C10: the output of clean_text never contains two consecutive
newline characters, so the 3-plus-newline collapse step is vacuous and no
blank line survives normalization. -/
theorem clean_text_no_double_newline (t : Str) :
    hasDoubleNewline (clean_text t) = false := by
  rw [clean_text_eq_join]
  apply joinSep_nl_no_double
  intro pc hpc
  obtain ⟨h1, h2, _⟩ := cleanedLines_good t pc hpc
  exact ⟨h1, h2⟩

/-! ### The micro chunker: EnhancedCharacterExtractor._micro_split_text -/

/-- Sentence-terminal punctuation characters of the sentence-ending regex in
_micro_split_text. -/
def isSentencePunct (c : Char) : Bool :=
  c = '.' || c = '!' || c = '?' || c = '。' || c = '！' || c = '？'

/-- Length of the leading whitespace run. -/
def leadingWsLen (l : Str) : Nat := (l.takeWhile pyIsSpace).length

/-- Length of the leading newline run. -/
def leadingNlLen (l : Str) : Nat := (l.takeWhile (fun d => d = '\n')).length

/-- End position of the last sentence ending inside a window, in the sense of
regex finditer over the pattern punctuation-then-whitespace: the last match
starts at the last punctuation character that is directly followed by
whitespace, and, the whitespace repetition being greedy, ends after the
whole whitespace run.  Returns none when the window has no match, matching
the minus-one sentinel of the source. -/
def lastSentenceEndAux : Str → Nat → Option Nat → Option Nat
  | [], _, best => best
  | c :: rest, i, best =>
    if isSentencePunct c && 1 ≤ leadingWsLen rest then
      lastSentenceEndAux rest (i + 1) (some (i + 1 + leadingWsLen rest))
    else
      lastSentenceEndAux rest (i + 1) best

def lastSentenceEnd (w : Str) : Option Nat := lastSentenceEndAux w 0 none

theorem lastSentenceEndAux_bounds : ∀ (l : Str) (i : Nat) (best : Option Nat),
    (∀ e, best = some e → 1 ≤ e ∧ e ≤ i + l.length) →
    ∀ e, lastSentenceEndAux l i best = some e → 1 ≤ e ∧ e ≤ i + l.length := by
  intro l
  induction l with
  | nil =>
    intro i best hbest e he
    have := hbest e he
    simpa using this
  | cons c rest ih =>
    intro i best hbest e he
    rw [lastSentenceEndAux] at he
    have hrun : leadingWsLen rest ≤ rest.length := takeWhile_len_le _ rest
    by_cases hcond : (isSentencePunct c && 1 ≤ leadingWsLen rest) = true
    · rw [if_pos hcond] at he
      have := ih (i + 1) (some (i + 1 + leadingWsLen rest))
        (fun e' he' => by
          obtain rfl : i + 1 + leadingWsLen rest = e' := by simpa using he'
          omega) e he
      simp only [List.length_cons]
      omega
    · rw [if_neg hcond] at he
      have := ih (i + 1) best (fun e' he' => by
        have := hbest e' he'
        simp only [List.length_cons] at this ⊢
        omega) e he
      simp only [List.length_cons]
      omega

theorem lastSentenceEnd_bounds (w : Str) :
    ∀ e, lastSentenceEnd w = some e → 1 ≤ e ∧ e ≤ w.length := by
  intro e he
  have := lastSentenceEndAux_bounds w 0 none (by simp) e he
  simpa using this

/-- The paragraph split of _micro_split_text: regex split on runs of two or
more newlines (the greedy repetition consumes each maximal run). -/
def splitParasAux : Str → Str → List Str
  | [], cur => [cur.reverse]
  | c :: rest, cur =>
    if c = '\n' && 1 ≤ leadingNlLen rest then
      cur.reverse :: splitParasAux (rest.drop (leadingNlLen rest)) []
    else
      splitParasAux rest (c :: cur)
termination_by l _ => l.length
decreasing_by
  · simp only [List.length_cons, List.length_drop]
    omega
  · simp

def splitParas (t : Str) : List Str := splitParasAux t []

/-- Append the stripped buffer as a chunk when it is non-blank: the local
flush helper of _micro_split_text. -/
def microFlush (chunks : List Str) (buf : Str) : List Str :=
  if pyStrip buf = [] then chunks else chunks ++ [pyStrip buf]

/-- The cut position chosen by one round of the inner while-loop of
_micro_split_text: the last sentence ending of the hard-max window when it
lies at or past half of target_chars, else exactly hard_max_chars. -/
def sentCut (targetChars hardMaxChars : Nat) (buffer : Str) : Nat :=
  match lastSentenceEnd (buffer.take hardMaxChars) with
  | some e => if targetChars / 2 ≤ e then e else hardMaxChars
  | none => hardMaxChars

theorem sentCut_bounds (targetChars hardMaxChars : Nat) (hpos : 0 < hardMaxChars)
    (buffer : Str) :
    1 ≤ sentCut targetChars hardMaxChars buffer ∧
      sentCut targetChars hardMaxChars buffer ≤ hardMaxChars := by
  unfold sentCut
  cases hlast : lastSentenceEnd (buffer.take hardMaxChars) with
  | none => exact ⟨hpos, le_refl _⟩
  | some e =>
    have hb := lastSentenceEnd_bounds _ e hlast
    have hlen : (buffer.take hardMaxChars).length ≤ hardMaxChars := by
      simp [List.length_take]
    by_cases hge : targetChars / 2 ≤ e
    · simp only [hge, if_true]; omega
    · simp only [hge, if_false]; omega

/-- The inner while-loop of _micro_split_text: while the buffer is at least
hard_max_chars long, flush the prefix up to the chosen cut and keep the
rest. The source loops forever when hard_max_chars is zero, so the model
guards the loop on a positive hard_max_chars. -/
def microCutLoop (targetChars hardMaxChars : Nat) : Str → List Str → List Str × Str
  | buffer, acc =>
    if h : hardMaxChars ≤ buffer.length ∧ 0 < hardMaxChars then
      microCutLoop targetChars hardMaxChars
        (buffer.drop (sentCut targetChars hardMaxChars buffer))
        (microFlush acc (buffer.take (sentCut targetChars hardMaxChars buffer)))
    else (acc, buffer)
termination_by buffer _ => buffer.length
decreasing_by
  have hb := sentCut_bounds targetChars hardMaxChars h.2 buffer
  simp only [List.length_drop]
  omega

/-- One paragraph step of _micro_split_text: append the paragraph to the
buffer, run the hard-max cut loop, then flush the whole buffer when it has
reached target_chars. -/
def microStep (targetChars hardMaxChars : Nat) (st : List Str × Str) (para : Str) :
    List Str × Str :=
  let p := pyStrip para
  if p = [] then st
  else
    let buf0 := if st.2 = [] then p else st.2 ++ '\n' :: '\n' :: p
    let r := microCutLoop targetChars hardMaxChars buf0 st.1
    if targetChars ≤ r.2.length then (microFlush r.1 r.2, [])
    else r

/-- EnhancedCharacterExtractor._micro_split_text: split into blank-line
delimited paragraphs, accumulate them into a buffer, cut the buffer at
sentence boundaries inside each hard-max window, flush at target size, and
flush the remainder at the end. -/
def micro_split_text (text : Str) (targetChars hardMaxChars : Nat) : List Str :=
  if text = [] then []
  else
    let paragraphs := (splitParas text).filter (fun p => pyStrip p ≠ [])
    let st := paragraphs.foldl (microStep targetChars hardMaxChars) ([], [])
    if st.2 ≠ [] then microFlush st.1 st.2 else st.1

theorem dropWhile_length_le (p : Char → Bool) (l : Str) :
    (l.dropWhile p).length ≤ l.length := by
  induction l with
  | nil => simp
  | cons a t ih =>
    by_cases h : p a
    · simp only [List.dropWhile_cons, h, if_true]
      simp only [List.length_cons]
      omega
    · simp [List.dropWhile_cons, h]

theorem pyStrip_length_le (l : Str) : (pyStrip l).length ≤ l.length := by
  unfold pyStrip
  calc (((l.dropWhile pyIsSpace).reverse.dropWhile pyIsSpace).reverse).length
      = ((l.dropWhile pyIsSpace).reverse.dropWhile pyIsSpace).length := by
        rw [List.length_reverse]
    _ ≤ (l.dropWhile pyIsSpace).reverse.length := dropWhile_length_le _ _
    _ = (l.dropWhile pyIsSpace).length := by rw [List.length_reverse]
    _ ≤ l.length := dropWhile_length_le _ _

theorem microFlush_bound (bound : Nat) (chunks : List Str) (buf : Str)
    (hc : ∀ c ∈ chunks, c.length ≤ bound) (hb : buf.length ≤ bound) :
    ∀ c ∈ microFlush chunks buf, c.length ≤ bound := by
  intro c hmem
  unfold microFlush at hmem
  by_cases hs : pyStrip buf = []
  · rw [if_pos hs] at hmem
    exact hc c hmem
  · rw [if_neg hs] at hmem
    rw [List.mem_append] at hmem
    rcases hmem with h | h
    · exact hc c h
    · have : c = pyStrip buf := by simpa using h
      subst this
      exact le_trans (pyStrip_length_le buf) hb

theorem microCutLoop_bound (targetChars hardMaxChars : Nat) (hpos : 0 < hardMaxChars) :
    ∀ (buffer : Str) (acc : List Str),
    (∀ c ∈ acc, c.length ≤ hardMaxChars) →
    (∀ c ∈ (microCutLoop targetChars hardMaxChars buffer acc).1,
      c.length ≤ hardMaxChars) ∧
    (microCutLoop targetChars hardMaxChars buffer acc).2.length < hardMaxChars := by
  intro buffer acc
  induction buffer, acc using microCutLoop.induct targetChars hardMaxChars with
  | case1 buffer acc h ih =>
    intro hacc
    rw [microCutLoop, dif_pos h]
    apply ih
    apply microFlush_bound _ _ _ hacc
    have hsc := sentCut_bounds targetChars hardMaxChars hpos buffer
    simp only [List.length_take]
    omega
  | case2 buffer acc h =>
    intro hacc
    rw [microCutLoop, dif_neg h]
    refine ⟨hacc, ?_⟩
    simp only [not_and, not_le] at h
    rcases Nat.lt_or_ge buffer.length hardMaxChars with hlt | hge
    · exact hlt
    · exact absurd hpos (by omega)

theorem microStep_bound (targetChars hardMaxChars : Nat) (hpos : 0 < hardMaxChars)
    (st : List Str × Str) (para : Str)
    (hacc : ∀ c ∈ st.1, c.length ≤ hardMaxChars)
    (hbuf : st.2.length < hardMaxChars ∨ st.2 = []) :
    (∀ c ∈ (microStep targetChars hardMaxChars st para).1, c.length ≤ hardMaxChars) ∧
    ((microStep targetChars hardMaxChars st para).2.length < hardMaxChars ∨
      (microStep targetChars hardMaxChars st para).2 = []) := by
  unfold microStep
  by_cases hp : pyStrip para = []
  · simp only [hp, if_true]
    exact ⟨hacc, hbuf⟩
  · simp only [hp, if_false]
    have hloop := microCutLoop_bound targetChars hardMaxChars hpos
      (if st.2 = [] then pyStrip para else st.2 ++ '\n' :: '\n' :: pyStrip para) st.1 hacc
    by_cases hflush : targetChars ≤
        (microCutLoop targetChars hardMaxChars
          (if st.2 = [] then pyStrip para else st.2 ++ '\n' :: '\n' :: pyStrip para)
          st.1).2.length
    · simp only [hflush, if_true]
      refine ⟨?_, by simp⟩
      exact microFlush_bound _ _ _ hloop.1 (le_of_lt hloop.2)
    · simp only [hflush, if_false]
      exact ⟨hloop.1, Or.inl hloop.2⟩

theorem microFold_bound (targetChars hardMaxChars : Nat) (hpos : 0 < hardMaxChars) :
    ∀ (paras : List Str) (st : List Str × Str),
    (∀ c ∈ st.1, c.length ≤ hardMaxChars) →
    (st.2.length < hardMaxChars ∨ st.2 = []) →
    (∀ c ∈ (paras.foldl (microStep targetChars hardMaxChars) st).1,
      c.length ≤ hardMaxChars) ∧
    ((paras.foldl (microStep targetChars hardMaxChars) st).2.length < hardMaxChars ∨
      (paras.foldl (microStep targetChars hardMaxChars) st).2 = []) := by
  intro paras
  induction paras with
  | nil => intro st h1 h2; exact ⟨h1, h2⟩
  | cons p rest ih =>
    intro st h1 h2
    have hstep := microStep_bound targetChars hardMaxChars hpos st p h1 h2
    exact ih _ hstep.1 hstep.2

/-- Claim C7: micro-chunk size ceiling — when hard_max_chars is positive
(the source does not terminate at zero) every chunk returned by
_micro_split_text has length at most hard_max_chars; target_chars at most
hard_max_chars as the claim assumes. -/
theorem micro_split_text_chunk_le (text : Str) (targetChars hardMaxChars : Nat)
    (hth : targetChars ≤ hardMaxChars) (hpos : 0 < hardMaxChars) :
    ∀ c ∈ micro_split_text text targetChars hardMaxChars,
      c.length ≤ hardMaxChars := by
  intro c hmem
  unfold micro_split_text at hmem
  by_cases ht : text = []
  · rw [if_pos ht] at hmem
    simp at hmem
  · rw [if_neg ht] at hmem
    have hfold := microFold_bound targetChars hardMaxChars hpos
      ((splitParas text).filter (fun p => pyStrip p ≠ [])) ([], [])
      (by intro c hc; simp at hc) (by simp)
    set st := ((splitParas text).filter (fun p => pyStrip p ≠ [])).foldl
      (microStep targetChars hardMaxChars) ([], []) with hst
    by_cases hb : st.2 ≠ []
    · rw [if_pos hb] at hmem
      rcases hfold.2 with hlt | hnil
      · exact microFlush_bound _ _ _ hfold.1 (le_of_lt hlt) c hmem
      · exact absurd hnil hb
    · rw [if_neg hb] at hmem
      exact hfold.1 c hmem

/-- Witness for claim C7 at the default parameters on a concrete text. -/
theorem micro_split_text_chunk_le_witness :
    1600 ≤ 2400 ∧ 0 < 2400 ∧
    ∀ c ∈ micro_split_text (toCl "First sentence. Second one! A third?\n\nLast paragraph.")
      1600 2400, c.length ≤ 2400 :=
  ⟨by decide, by decide,
    micro_split_text_chunk_le _ 1600 2400 (by decide) (by decide)⟩

/-! ### The micro-chunk merger: _merge_micro_chunks_with_llm -/

/-- Response shape of the merge collaborator: the chapters field (lists of
chunk indices; entries of other JSON types are dropped by the source before
validation and are therefore absent from the model) and the
leftover_from_index field (none models a missing or non-integer value). -/
structure MergeResp where
  chapters : List (List Int)
  leftover : Option Int

/-- The merge collaborator: given the batch bounds (carry_start_idx and
end_idx) of the request it either fails (none, modelling a raised exception,
an empty payload or malformed JSON) or answers. The source sends head and
tail snippets of the batch chunks, but only the returned data influences
control flow. -/
abbrev MergeOracle := Nat → Nat → Option MergeResp

/-- Python sorted for integer lists: insertion sort, ascending. -/
def insortInt (x : Int) : List Int → List Int
  | [] => [x]
  | y :: ys => if x ≤ y then x :: y :: ys else y :: insortInt x ys

def pySortedInt : List Int → List Int
  | [] => []
  | x :: xs => insortInt x (pySortedInt xs)

/-- The contiguity check of the source on the sorted group: every adjacent
pair differs by exactly one. -/
def isConsecRun : List Int → Bool
  | [] => true
  | [_] => true
  | a :: b :: rest => (b = a + 1) && isConsecRun (b :: rest)

/-- Group validation of _merge_micro_chunks_with_llm: skip the empty group,
require every index inside the current batch range, sort, require adjacent
sorted indices to be consecutive; an accepted group is the sorted run. -/
def acceptGroup (carry endIdx : Nat) (g : List Int) : Option (List Nat) :=
  if g = [] then none
  else if g.all (fun x => (carry : Int) ≤ x && x < (endIdx : Int)) then
    if isConsecRun (pySortedInt g) then some ((pySortedInt g).map Int.toNat) else none
  else none

/-- The leftover_from_index safeguard of the source: a missing or
non-integer value and a value below carry_start_idx become end_idx, and the
result is clamped to end_idx. -/
def effLeftover (carry endIdx : Nat) (lo : Option Int) : Nat :=
  match lo with
  | none => endIdx
  | some v => if v < (carry : Int) then endIdx else min v.toNat endIdx

/-- One batch iteration of _merge_micro_chunks_with_llm: build the batch
index run, call the collaborator; on failure append the whole batch as a
single group and advance to the batch end, otherwise append the validated
groups and advance carry_start_idx to the effective leftover (the batch end
when none or an invalid one is reported). -/
def mergeBatchStep (oracle : MergeOracle) (n batchSize : Nat)
    (groups : List (List Nat)) (carry : Nat) : List (List Nat) × Nat :=
  let endIdx := min (carry + batchSize) n
  let batchIndices := List.range' carry (endIdx - carry)
  match oracle carry endIdx with
  | none => (groups ++ [batchIndices], endIdx)
  | some resp =>
    let lf := effLeftover carry endIdx resp.leftover
    (groups ++ resp.chapters.filterMap (acceptGroup carry endIdx),
      if endIdx ≤ lf then endIdx else lf)

/-- The batch while-loop of _merge_micro_chunks_with_llm with explicit fuel:
the source has no iteration bound and can loop forever (see the claim C3
counterexample), which the model reports as none when the fuel runs out
with carry_start_idx still below n. -/
def mergeLoop (oracle : MergeOracle) (n batchSize : Nat) :
    Nat → List (List Nat) → Nat → Option (List (List Nat))
  | 0, groups, carry => if carry < n then none else some groups
  | fuel + 1, groups, carry =>
    if carry < n then
      mergeLoop oracle n batchSize fuel
        (mergeBatchStep oracle n batchSize groups carry).1
        (mergeBatchStep oracle n batchSize groups carry).2
    else some groups

/-- _merge_micro_chunks_with_llm with explicit fuel: empty chunk list gives
the empty group list, otherwise the batch loop starts at carry_start_idx
zero with no groups. -/
def merge_micro_chunks_with_llm (oracle : MergeOracle) (microChunks : List Str)
    (batchSize fuel : Nat) : Option (List (List Nat)) :=
  if microChunks = [] then some []
  else mergeLoop oracle microChunks.length batchSize fuel [] 0

/-- The stub of the claim C3 counterexample: a well-formed response carrying
an empty chapters list and leftover_from_index equal to carry_start_idx. -/
def stallMergeOracle : MergeOracle :=
  fun carry _ => some { chapters := [], leftover := some (carry : Int) }

set_option maxRecDepth 4000 in
/-- Claim C3 counterexample: with the well-formed response
leftover_from_index = carry_start_idx, the batch step leaves the state
unchanged even though the batch (carry 0, end 1 of a 1-chunk list) is
non-degenerate, so carry_start_idx does not advance and the batch loop of
the source never terminates (the fuelled model reports none at any fuel,
here 400). -/
theorem mergeBatchStep_no_advance :
    mergeBatchStep stallMergeOracle 1 18 [] 0 = ([], 0) ∧ (0 : Nat) < 1 ∧
      merge_micro_chunks_with_llm stallMergeOracle [toCl "x"] 18 400 = none := by
  refine ⟨by decide, by decide, ?_⟩
  decide

/-- Claim C3 (amended): on every non-degenerate batch the merger never moves
carry_start_idx backwards and keeps it within bounds, and the only way it
fails to advance strictly is a response whose leftover_from_index equals the
current carry_start_idx. -/
theorem mergeBatchStep_carry_monotone (oracle : MergeOracle) (n batchSize : Nat)
    (groups : List (List Nat)) (carry : Nat) (hc : carry < n) (hb : 1 ≤ batchSize) :
    carry ≤ (mergeBatchStep oracle n batchSize groups carry).2 ∧
    (mergeBatchStep oracle n batchSize groups carry).2 ≤ n ∧
    ((mergeBatchStep oracle n batchSize groups carry).2 = carry →
      ∃ r, oracle carry (min (carry + batchSize) n) = some r ∧
        r.leftover = some (carry : Int)) := by
  have hend : carry < min (carry + batchSize) n ∧ min (carry + batchSize) n ≤ n := by
    constructor <;> omega
  cases ho : oracle carry (min (carry + batchSize) n) with
  | none =>
    simp only [mergeBatchStep, ho]
    exact ⟨by omega, by omega, fun heq => absurd heq (by omega)⟩
  | some resp =>
    cases hlo : resp.leftover with
    | none =>
      simp only [mergeBatchStep, ho, hlo, effLeftover, le_refl, if_true]
      exact ⟨by omega, by omega, fun heq => absurd heq (by omega)⟩
    | some v =>
      by_cases hv : v < (carry : Int)
      · simp only [mergeBatchStep, ho, hlo, effLeftover, if_pos hv, le_refl, if_true]
        exact ⟨by omega, by omega, fun heq => absurd heq (by omega)⟩
      · simp only [mergeBatchStep, ho, hlo, effLeftover, if_neg hv]
        push_neg at hv
        have hvt : carry ≤ v.toNat := by omega
        by_cases hcl : min (carry + batchSize) n ≤ min v.toNat (min (carry + batchSize) n)
        · simp only [if_pos hcl]
          exact ⟨by omega, by omega, fun heq => absurd heq (by omega)⟩
        · simp only [if_neg hcl]
          refine ⟨by omega, by omega, fun heq => ?_⟩
          refine ⟨resp, rfl, ?_⟩
          rw [hlo]
          have hveq : v = (carry : Int) := by omega
          rw [hveq]

/-- The groups produced from carry onward when every collaborator call
fails: one full batch run per iteration. -/
def failGroupsFrom (n batchSize carry : Nat) : List (List Nat) :=
  if h : carry < n ∧ 1 ≤ batchSize then
    List.range' carry (min (carry + batchSize) n - carry) ::
      failGroupsFrom n batchSize (min (carry + batchSize) n)
  else []
termination_by n - carry
decreasing_by omega

theorem mergeLoop_fail_eq (n batchSize : Nat) (hb : 1 ≤ batchSize) :
    ∀ (fuel carry : Nat) (groups : List (List Nat)), n - carry ≤ fuel →
      mergeLoop (fun _ _ => none) n batchSize fuel groups carry =
        some (groups ++ failGroupsFrom n batchSize carry) := by
  intro fuel
  induction fuel with
  | zero =>
    intro carry groups hf
    have hge : ¬ carry < n := by omega
    rw [mergeLoop, if_neg hge, failGroupsFrom, dif_neg (by omega)]
    simp
  | succ fuel ih =>
    intro carry groups hf
    by_cases hc : carry < n
    · rw [mergeLoop, if_pos hc]
      have hstep : mergeBatchStep (fun _ _ => none) n batchSize groups carry =
          (groups ++ [List.range' carry (min (carry + batchSize) n - carry)],
            min (carry + batchSize) n) := by
        simp [mergeBatchStep]
      rw [hstep]
      have hrec := ih (min (carry + batchSize) n)
        (groups ++ [List.range' carry (min (carry + batchSize) n - carry)]) (by omega)
      rw [hrec]
      have hrhs : failGroupsFrom n batchSize carry
          = List.range' carry (min (carry + batchSize) n - carry)
            :: failGroupsFrom n batchSize (min (carry + batchSize) n) := by
        conv =>
          lhs
          rw [failGroupsFrom]
        rw [dif_pos ⟨hc, hb⟩]
      rw [hrhs]
      simp
    · rw [mergeLoop, if_neg hc, failGroupsFrom, dif_neg (by omega)]
      simp

theorem failGroupsFrom_length (n batchSize : Nat) (hb : 1 ≤ batchSize) :
    ∀ carry, (failGroupsFrom n batchSize carry).length =
      (n - carry + batchSize - 1) / batchSize := by
  intro carry
  induction carry using failGroupsFrom.induct n batchSize with
  | case1 carry h ih =>
    rw [failGroupsFrom, dif_pos h]
    rw [List.length_cons, ih]
    rcases le_or_lt batchSize (n - carry) with hle | hlt
    · have h1 : n - min (carry + batchSize) n = n - carry - batchSize := by omega
      have h2 : n - carry + batchSize - 1 = (n - carry - 1) + batchSize := by omega
      have h3 : n - carry - batchSize + batchSize - 1 = n - carry - 1 := by omega
      rw [h1, h2, h3, Nat.add_div_right _ (by omega)]
    · have h1 : n - min (carry + batchSize) n = 0 := by omega
      rw [h1]
      have h2 : (0 + batchSize - 1) / batchSize = 0 :=
        Nat.div_eq_of_lt (by omega)
      rw [h2]
      have h3 : n - carry + batchSize - 1 = (n - carry - 1) + batchSize := by omega
      rw [h3, Nat.add_div_right _ (by omega), Nat.div_eq_of_lt (by omega)]
  | case2 carry h =>
    rw [failGroupsFrom, dif_neg h]
    have hge : n ≤ carry := by omega
    have : n - carry = 0 := by omega
    rw [this]
    rw [Nat.div_eq_of_lt (by omega)]
    rfl

theorem failGroupsFrom_flatten (n batchSize : Nat) (hb : 1 ≤ batchSize) :
    ∀ carry, (failGroupsFrom n batchSize carry).flatten
      = List.range' carry (n - carry) := by
  intro carry
  induction carry using failGroupsFrom.induct n batchSize with
  | case1 carry h ih =>
    rw [failGroupsFrom, dif_pos h]
    rw [List.flatten_cons, ih]
    have h1 : List.range' (min (carry + batchSize) n) (n - min (carry + batchSize) n)
        = List.range' (carry + (min (carry + batchSize) n - carry))
          (n - min (carry + batchSize) n) := by
      congr 1
      omega
    rw [h1, List.range'_append_1]
    congr 1
    omega
  | case2 carry h =>
    rw [failGroupsFrom, dif_neg h]
    have : n - carry = 0 := by omega
    rw [this]
    rfl

theorem failGroupsFrom_getD (n batchSize : Nat) (hb : 1 ≤ batchSize) :
    ∀ carry i, i < (failGroupsFrom n batchSize carry).length →
      (failGroupsFrom n batchSize carry).getD i [] =
        List.range' (carry + i * batchSize)
          (min batchSize (n - (carry + i * batchSize))) := by
  intro carry
  induction carry using failGroupsFrom.induct n batchSize with
  | case1 carry h ih =>
    intro i hi
    rw [failGroupsFrom, dif_pos h] at hi ⊢
    cases i with
    | zero =>
      show List.range' carry (min (carry + batchSize) n - carry) = _
      congr 1
      · omega
      · omega
    | succ j =>
      show (failGroupsFrom n batchSize (min (carry + batchSize) n)).getD j [] = _
      rcases le_or_lt (carry + batchSize) n with hle | hlt
      · have hmin : min (carry + batchSize) n = carry + batchSize := by omega
        rw [List.length_cons] at hi
        have hrec := ih j (by omega)
        rw [hmin] at hrec ⊢
        rw [hrec]
        congr 1
        · ring
        · congr 1
          ring
      · have hmin : min (carry + batchSize) n = n := by omega
        have hnil : failGroupsFrom n batchSize (min (carry + batchSize) n) = [] := by
          rw [failGroupsFrom, dif_neg (by omega)]
        rw [List.length_cons, hnil] at hi
        simp at hi
  | case2 carry h =>
    intro i hi
    rw [failGroupsFrom, dif_neg h] at hi
    simp at hi

/-- Claim C4: with a collaborator that always fails, the merger returns
exactly ceiling of n over batchSize groups, group i being the full batch
run from i times batchSize, and the groups joined in order are exactly the
indices 0 to n-1 with no gaps and no loss. -/
theorem merge_fail_single_groups (microChunks : List Str) (batchSize fuel : Nat)
    (hb : 1 ≤ batchSize) (hf : microChunks.length ≤ fuel) :
    ∃ gs, merge_micro_chunks_with_llm (fun _ _ => none) microChunks batchSize fuel
        = some gs ∧
      gs.length = (microChunks.length + batchSize - 1) / batchSize ∧
      gs.flatten = List.range microChunks.length ∧
      ∀ i, i < gs.length → gs.getD i [] =
        List.range' (i * batchSize)
          (min batchSize (microChunks.length - i * batchSize)) := by
  unfold merge_micro_chunks_with_llm
  by_cases hmc : microChunks = []
  · rw [if_pos hmc]
    refine ⟨[], rfl, ?_, ?_, ?_⟩
    · rw [hmc]
      simp [Nat.div_eq_of_lt (by omega : batchSize - 1 < batchSize)]
    · rw [hmc]; rfl
    · intro i hi; simp at hi
  · rw [if_neg hmc]
    refine ⟨failGroupsFrom microChunks.length batchSize 0, ?_, ?_, ?_, ?_⟩
    · have := mergeLoop_fail_eq microChunks.length batchSize hb fuel 0 [] (by omega)
      rw [this]
      simp
    · rw [failGroupsFrom_length _ _ hb 0, Nat.sub_zero]
    · rw [failGroupsFrom_flatten _ _ hb 0, List.range_eq_range', Nat.sub_zero]
    · intro i hi
      have := failGroupsFrom_getD microChunks.length batchSize hb 0 i hi
      simpa using this

/-- Witness for claim C4 at the spec example: 40 chunks with batch size 18
give exactly 3 full-batch groups covering indices 0 to 39. -/
theorem merge_fail_single_groups_witness :
    1 ≤ 18 ∧ (List.replicate 40 (toCl "x")).length ≤ 40 ∧
    ∃ gs, merge_micro_chunks_with_llm (fun _ _ => none)
        (List.replicate 40 (toCl "x")) 18 40 = some gs ∧
      gs.length = ((List.replicate 40 (toCl "x")).length + 18 - 1) / 18 ∧
      gs.flatten = List.range (List.replicate 40 (toCl "x")).length ∧
      ∀ i, i < gs.length → gs.getD i [] =
        List.range' (i * 18)
          (min 18 ((List.replicate 40 (toCl "x")).length - i * 18)) :=
  ⟨by decide, by simp, merge_fail_single_groups (List.replicate 40 (toCl "x")) 18 40
    (by decide) (by simp)⟩

theorem mem_insortInt (x : Int) : ∀ (l : List Int) (y : Int),
    y ∈ insortInt x l ↔ y = x ∨ y ∈ l := by
  intro l
  induction l with
  | nil => intro y; simp [insortInt]
  | cons a t ih =>
    intro y
    unfold insortInt
    by_cases h : x ≤ a
    · rw [if_pos h]
      simp [List.mem_cons]
    · rw [if_neg h]
      simp only [List.mem_cons, ih y]
      tauto

theorem mem_pySortedInt : ∀ (l : List Int) (y : Int), y ∈ pySortedInt l ↔ y ∈ l := by
  intro l
  induction l with
  | nil => intro y; simp [pySortedInt]
  | cons a t ih =>
    intro y
    rw [pySortedInt, mem_insortInt, ih]
    simp [List.mem_cons]

theorem pySortedInt_ne_nil (l : List Int) (h : l ≠ []) : pySortedInt l ≠ [] := by
  cases l with
  | nil => exact absurd rfl h
  | cons a t =>
    rw [pySortedInt]
    cases hs : pySortedInt t with
    | nil => simp [insortInt]
    | cons b t' =>
      unfold insortInt
      by_cases hab : a ≤ b
      · rw [if_pos hab]; simp
      · rw [if_neg hab]; simp

theorem isConsecRun_chain : ∀ (l : List Int), isConsecRun l = true →
    (∀ x ∈ l, 0 ≤ x) →
    (l.map Int.toNat).Chain' (fun a b => b = a + 1) := by
  intro l
  induction l with
  | nil => intro _ _; simp
  | cons a t ih =>
    intro hrun hpos
    cases t with
    | nil => simp
    | cons b t' =>
      rw [isConsecRun, Bool.and_eq_true] at hrun
      have hb : b = a + 1 := by simpa using hrun.1
      have ha0 : 0 ≤ a := hpos a (List.mem_cons_self a _)
      have hchain := ih hrun.2 (fun x hx => hpos x (List.mem_cons_of_mem a hx))
      simp only [List.map_cons] at hchain ⊢
      rw [List.chain'_cons]
      refine ⟨?_, hchain⟩
      omega

/-- The stub of the claim C5 counterexample: a response claiming micro-chunk
index 0 twice, in two separate groups. -/
def dupMergeOracle : MergeOracle :=
  fun _ _ => some { chapters := [[0], [0]], leftover := none }

/-- Claim C5 counterexample: the merger has no cross-group duplicate-claim
check — a response whose two groups both claim index 0 gets both groups
accepted, so a group containing an index already claimed by another accepted
group is not rejected. -/
theorem mergeBatchStep_accepts_duplicates :
    mergeBatchStep dupMergeOracle 1 18 [] 0 = ([[0], [0]], 1) := by
  decide

/-- Claim C5 (amended): each group appended by a successful batch is exactly
one validated by acceptGroup, and every accepted group is non-empty, a
strictly consecutive ascending run, and inside the current batch range;
there is no cross-group duplicate check. -/
theorem mergeBatchStep_validation_sound (oracle : MergeOracle) (n batchSize : Nat)
    (groups : List (List Nat)) (carry : Nat) (r : MergeResp)
    (hresp : oracle carry (min (carry + batchSize) n) = some r) :
    (mergeBatchStep oracle n batchSize groups carry).1 =
      groups ++ r.chapters.filterMap (acceptGroup carry (min (carry + batchSize) n)) ∧
    ∀ h ∈ (mergeBatchStep oracle n batchSize groups carry).1.drop groups.length,
      h ≠ [] ∧ h.Chain' (fun a b => b = a + 1) ∧
        ∀ x ∈ h, carry ≤ x ∧ x < min (carry + batchSize) n := by
  have hfirst : (mergeBatchStep oracle n batchSize groups carry).1 =
      groups ++ r.chapters.filterMap (acceptGroup carry (min (carry + batchSize) n)) := by
    simp [mergeBatchStep, hresp]
  refine ⟨hfirst, ?_⟩
  intro h hmem
  rw [hfirst, List.drop_append_of_le_length (le_refl _), List.drop_length,
    List.nil_append] at hmem
  rw [List.mem_filterMap] at hmem
  obtain ⟨g, hg, hacc⟩ := hmem
  unfold acceptGroup at hacc
  by_cases hge : g = []
  · rw [if_pos hge] at hacc; exact absurd hacc (by simp)
  · rw [if_neg hge] at hacc
    by_cases hall : g.all
        (fun x => decide ((carry : Int) ≤ x) && decide (x < ((min (carry + batchSize) n : Nat) : Int)))
        = true
    · rw [if_pos hall] at hacc
      by_cases hrun : isConsecRun (pySortedInt g) = true
      · rw [if_pos hrun] at hacc
        have hh : h = (pySortedInt g).map Int.toNat := by
          have := hacc
          simp only [Option.some_inj] at this
          exact this.symm
        have hposmem : ∀ x ∈ pySortedInt g, (0 : Int) ≤ x := by
          intro x hx
          rw [mem_pySortedInt] at hx
          have := List.all_eq_true.mp hall x hx
          simp only [Bool.and_eq_true, decide_eq_true_eq] at this
          omega
        refine ⟨?_, ?_, ?_⟩
        · rw [hh]
          have := pySortedInt_ne_nil g hge
          simpa using this
        · rw [hh]
          exact isConsecRun_chain (pySortedInt g) hrun hposmem
        · intro x hx
          rw [hh, List.mem_map] at hx
          obtain ⟨y, hy, rfl⟩ := hx
          have hy2 := hy
          rw [mem_pySortedInt] at hy2
          have := List.all_eq_true.mp hall y hy2
          simp only [Bool.and_eq_true, decide_eq_true_eq] at this
          constructor <;> omega
      · rw [if_neg hrun] at hacc; exact absurd hacc (by simp)
    · rw [if_neg hall] at hacc; exact absurd hacc (by simp)

/-- Witness for the amended claim C5: a concrete successful response whose
shuffled group 1,0 is accepted as the run 0,1. -/
theorem mergeBatchStep_validation_sound_witness :
    (fun (_ _ : Nat) => some ({ chapters := [[1, 0]], leftover := none } : MergeResp))
        0 (min (0 + 18) 2)
      = some ({ chapters := [[1, 0]], leftover := none } : MergeResp) ∧
    ((mergeBatchStep
        (fun _ _ => some ({ chapters := [[1, 0]], leftover := none } : MergeResp))
        2 18 [] 0).1 =
      [] ++ [[1, 0]].filterMap (acceptGroup 0 (min (0 + 18) 2)) ∧
    ∀ h ∈ ((mergeBatchStep
        (fun _ _ => some ({ chapters := [[1, 0]], leftover := none } : MergeResp))
        2 18 [] 0).1.drop ([] : List (List Nat)).length),
      h ≠ [] ∧ h.Chain' (fun a b => b = a + 1) ∧
        ∀ x ∈ h, 0 ≤ x ∧ x < min (0 + 18) 2) :=
  ⟨rfl, mergeBatchStep_validation_sound
    (fun _ _ => some ({ chapters := [[1, 0]], leftover := none } : MergeResp))
    2 18 [] 0 { chapters := [[1, 0]], leftover := none } rfl⟩

/-! ### A small regex engine for the anchored patterns of the source -/

/-- Regular expression syntax covering the patterns of _split_by_length:
character classes, sequencing, alternation, greedy star over a character
class (every repetition in the source patterns is over a single character
class), and the multiline line anchors. -/
inductive Rx where
  | eps
  | cls (p : Char → Bool)
  | seq (a b : Rx)
  | alt (a b : Rx)
  | starCls (p : Char → Bool)
  | bol
  | eol

/-- Character of the text at an index (blank when out of range; only
consulted in range). -/
def charAt (t : Str) (i : Nat) : Char := t.getD i ' '

/-- Line-start positions under the multiline flag. -/
def atBol (t : Str) (pos : Nat) : Bool :=
  pos = 0 || charAt t (pos - 1) = '\n'

/-- Line-end positions under the multiline flag. -/
def atEol (t : Str) (pos : Nat) : Bool :=
  pos = t.length || charAt t pos = '\n'

/-- Length of the maximal run of class characters from a position. -/
def runLen (t : Str) (p : Char → Bool) (pos : Nat) : Nat :=
  ((t.drop pos).takeWhile p).length

/-- All candidate match end positions of a pattern at a position, in
backtracking priority order: greedy repetition (longest first) and left
alternative first, so the head is the end the Python engine selects. -/
def rxEnds (t : Str) : Rx → Nat → List Nat
  | .eps, pos => [pos]
  | .cls p, pos =>
    if pos < t.length && p (charAt t pos) then [pos + 1] else []
  | .seq a b, pos =>
    (rxEnds t a pos).flatMap (fun e => rxEnds t b e)
  | .alt a b, pos => rxEnds t a pos ++ rxEnds t b pos
  | .starCls p, pos =>
    ((List.range (runLen t p pos + 1)).reverse).map (fun k => pos + k)
  | .bol, pos => if atBol t pos then [pos] else []
  | .eol, pos => if atEol t pos then [pos] else []

/-- The match end chosen at a position: the first candidate in priority
order, none when the pattern cannot match there. -/
def rxMatchAt (r : Rx) (t : Str) (pos : Nat) : Option Nat :=
  (rxEnds t r pos).head?

/-- The start positions of regex finditer: scan left to right, record each
match start, continue after the match (one step on a hypothetical
zero-width match; the patterns used here never match the empty string).
Position text-length is not attempted for the same reason. The structural
fuel equals the number of positions left to scan, so it never runs out. -/
def finditerStartsAux (r : Rx) (t : Str) : Nat → Nat → List Nat
  | 0, _ => []
  | fuel + 1, pos =>
    if pos < t.length then
      match rxMatchAt r t pos with
      | some e => pos :: finditerStartsAux r t fuel (max e (pos + 1))
      | none => finditerStartsAux r t fuel (pos + 1)
    else []

def finditerStarts (r : Rx) (t : Str) : List Nat := finditerStartsAux r t t.length 0

theorem finditerStartsAux_lt (r : Rx) (t : Str) :
    ∀ fuel pos, ∀ s ∈ finditerStartsAux r t fuel pos, s < t.length := by
  intro fuel
  induction fuel with
  | zero => intro pos s hs; simp [finditerStartsAux] at hs
  | succ fuel ih =>
    intro pos s hs
    rw [finditerStartsAux] at hs
    by_cases h : pos < t.length
    · rw [if_pos h] at hs
      cases he : rxMatchAt r t pos with
      | some e =>
        rw [he] at hs
        rcases List.mem_cons.mp hs with rfl | hs2
        · exact h
        · exact ih _ s hs2
      | none =>
        rw [he] at hs
        exact ih _ s hs
    · rw [if_neg h] at hs
      simp at hs

theorem finditerStarts_lt (r : Rx) (t : Str) :
    ∀ s ∈ finditerStarts r t, s < t.length :=
  finditerStartsAux_lt r t t.length 0

/-! Pattern building blocks mirroring the regex literals of the source. -/

def chrR (c : Char) : Rx := .cls (fun d => d = c)

/-- A literal character under the ignore-case flag (ASCII case folding). -/
def iChr (c : Char) : Rx := .cls (fun d => d.toLower = c.toLower)

def wsR : Rx := .cls pyIsSpace

/-- Greedy whitespace repetition. -/
def starWsR : Rx := .starCls pyIsSpace

def digitR : Rx := .cls Char.isDigit

def seqAll : List Rx → Rx
  | [] => .eps
  | [r] => r
  | r :: rs => .seq r (seqAll rs)

def altAny : List Rx → Rx
  | [] => .cls (fun _ => false)
  | [r] => r
  | r :: rs => .alt r (altAny rs)

/-- Case-insensitive literal word. -/
def ilitR (s : Str) : Rx := seqAll (s.map iChr)

/-- One or more characters of a class (greedy). -/
def plusCls (p : Char → Bool) : Rx := .seq (.cls p) (.starCls p)

def optR (r : Rx) : Rx := .alt r .eps

/-- A character repeated three or more times. -/
def rep3R (c : Char) : Rx :=
  seqAll [chrR c, chrR c, chrR c, .starCls (fun d => d = c)]

/-- The Korean chapter-unit alternatives jang, hwa, bu. -/
def jangR : Rx := altAny [chrR '장', chrR '화', chrR '부']

/-- Roman numeral characters under the ignore-case flag. -/
def isRomanCI (c : Char) : Bool :=
  c.toLower = 'i' || c.toLower = 'v' || c.toLower = 'x' || c.toLower = 'l' ||
  c.toLower = 'c' || c.toLower = 'd' || c.toLower = 'm'

/-- The heading regex of _split_by_length (multiline, ignore-case):
line-anchored prologue, epilogue, Korean and English chapter or part
headings with arabic or roman numerals. -/
def heading_regex : Rx :=
  seqAll [.bol, starWsR,
    altAny [
      ilitR (toCl "프롤로그"),
      ilitR (toCl "에필로그"),
      seqAll [ilitR (toCl "제"), starWsR, plusCls Char.isDigit, starWsR, jangR],
      seqAll [plusCls Char.isDigit, starWsR, jangR],
      seqAll [ilitR (toCl "파트"), starWsR, plusCls Char.isDigit],
      seqAll [ilitR (toCl "PART"), starWsR, plusCls Char.isDigit],
      seqAll [ilitR (toCl "Chapter"), starWsR,
        .alt (plusCls Char.isDigit) (plusCls isRomanCI)],
      seqAll [ilitR (toCl "CHAPTER"), starWsR,
        .alt (plusCls Char.isDigit) (plusCls isRomanCI)],
      seqAll [ilitR (toCl "챕터"), starWsR, plusCls Char.isDigit]],
    starWsR, .eol]

/-- The scene-separator regex of _split_by_length (multiline): runs of
dashes, asterisks or equals signs, markdown headings of one to six hash
marks, or decorative bullets, alone on a line. -/
def scene_regex : Rx :=
  seqAll [.bol, starWsR,
    altAny [
      rep3R '-',
      rep3R '*',
      rep3R '=',
      seqAll [chrR '#', optR (chrR '#'), optR (chrR '#'), optR (chrR '#'),
        optR (chrR '#'), optR (chrR '#'), plusCls pyIsSpace,
        plusCls (fun c => c ≠ '\n')],
      plusCls (fun c => c = '◇' || c = '■' || c = '※' || c = '○' || c = '◆')],
    starWsR, .eol]

/-- The paragraph-break regex of _split_by_length: two or more newlines. -/
def paragraph_break_regex : Rx :=
  seqAll [chrR '\n', chrR '\n', .starCls (fun d => d = '\n')]

/-- The sentence-break regex of _split_by_length: sentence punctuation,
optional whitespace, then a newline. -/
def sentence_break_regex : Rx :=
  seqAll [.cls isSentencePunct, starWsR, chrR '\n']

/-! ### The length splitter: EnhancedCharacterExtractor._split_by_length -/

/-- Python sorted for lists of naturals: insertion sort, ascending. -/
def insortNat (x : Nat) : List Nat → List Nat
  | [] => [x]
  | y :: ys => if x ≤ y then x :: y :: ys else y :: insortNat x ys

def pySortedNat : List Nat → List Nat
  | [] => []
  | x :: xs => insortNat x (pySortedNat xs)

/-- Remove adjacent duplicates; on a sorted list this yields the sorted set
of the source. -/
def dedupAdj : List Nat → List Nat
  | [] => []
  | [a] => [a]
  | a :: b :: t => if a = b then dedupAdj (b :: t) else a :: dedupAdj (b :: t)

/-- Python sorted set of candidate points. -/
def sortedSet (l : List Nat) : List Nat := dedupAdj (pySortedNat l)

theorem mem_insortNat (x : Nat) : ∀ (l : List Nat) (y : Nat),
    y ∈ insortNat x l → y = x ∨ y ∈ l := by
  intro l
  induction l with
  | nil => intro y hy; simpa [insortNat] using hy
  | cons a t ih =>
    intro y hy
    unfold insortNat at hy
    by_cases h : x ≤ a
    · rw [if_pos h] at hy
      simpa [List.mem_cons] using hy
    · rw [if_neg h] at hy
      rcases List.mem_cons.mp hy with rfl | hy2
      · right; exact List.mem_cons_self _ _
      · rcases ih y hy2 with h1 | h1
        · left; exact h1
        · right; exact List.mem_cons_of_mem _ h1

theorem mem_pySortedNat : ∀ (l : List Nat) (y : Nat), y ∈ pySortedNat l → y ∈ l := by
  intro l
  induction l with
  | nil => intro y hy; simpa [pySortedNat] using hy
  | cons a t ih =>
    intro y hy
    rw [pySortedNat] at hy
    rcases mem_insortNat a (pySortedNat t) y hy with rfl | hy2
    · exact List.mem_cons_self _ _
    · exact List.mem_cons_of_mem _ (ih y hy2)

theorem mem_dedupAdj : ∀ (l : List Nat) (y : Nat), y ∈ dedupAdj l → y ∈ l := by
  intro l
  induction l with
  | nil => intro y hy; simpa [dedupAdj] using hy
  | cons a t ih =>
    intro y hy
    cases t with
    | nil => simpa [dedupAdj] using hy
    | cons b t' =>
      unfold dedupAdj at hy
      by_cases h : a = b
      · rw [if_pos h] at hy
        exact List.mem_cons_of_mem _ (ih y hy)
      · rw [if_neg h] at hy
        rcases List.mem_cons.mp hy with rfl | hy2
        · exact List.mem_cons_self _ _
        · exact List.mem_cons_of_mem _ (ih y hy2)

theorem mem_sortedSet (l : List Nat) (y : Nat) (hy : y ∈ sortedSet l) : y ∈ l :=
  mem_pySortedNat l y (mem_dedupAdj (pySortedNat l) y hy)

/-- Index of the last sentence-terminal punctuation character of a region:
the source takes the maximum over the last occurrence of each of the six
punctuation characters, which is the last position holding any of them. -/
def lastPunctIdxAux : Str → Nat → Option Nat → Option Nat
  | [], _, best => best
  | c :: rest, i, best =>
    lastPunctIdxAux rest (i + 1) (if isSentencePunct c then some i else best)

def lastPunctIdx (l : Str) : Option Nat := lastPunctIdxAux l 0 none

theorem lastPunctIdxAux_lt : ∀ (l : Str) (i : Nat) (best : Option Nat),
    (∀ b, best = some b → b < i) →
    ∀ b, lastPunctIdxAux l i best = some b → b < i + l.length := by
  intro l
  induction l with
  | nil =>
    intro i best hbest b hb
    have := hbest b hb
    simpa using this
  | cons c rest ih =>
    intro i best hbest b hb
    rw [lastPunctIdxAux] at hb
    have hnext : ∀ x, (if isSentencePunct c then some i else best) = some x → x < i + 1 := by
      intro x hx
      by_cases hc : isSentencePunct c
      · rw [if_pos hc] at hx
        obtain rfl : i = x := by simpa using hx
        omega
      · rw [if_neg hc] at hx
        have := hbest x hx
        omega
    have := ih (i + 1) _ hnext b hb
    simp only [List.length_cons]
    omega

theorem lastPunctIdx_lt (l : Str) : ∀ b, lastPunctIdx l = some b → b < l.length := by
  intro b hb
  have := lastPunctIdxAux_lt l 0 none (by simp) b hb
  simpa using this

/-- The cut position chosen by one iteration of _split_by_length when more
than max_length text remains: the first heading match in the search window,
else the earliest of the scene, paragraph and sentence break points, else
one past the last punctuation character of the bounded back-scan region,
else exactly the window end. -/
def nextCut (text : Str) (maxLength minL lookahead cur : Nat) : Nat :=
  match finditerStarts heading_regex
      (pySlice text (cur + max minL 1) (min (cur + maxLength) text.length)) with
  | s :: _ => cur + max minL 1 + s
  | [] =>
    match sortedSet (finditerStarts scene_regex
        (pySlice text (cur + max minL 1) (min (cur + maxLength) text.length))
        ++ finditerStarts paragraph_break_regex
        (pySlice text (cur + max minL 1) (min (cur + maxLength) text.length))
        ++ finditerStarts sentence_break_regex
        (pySlice text (cur + max minL 1) (min (cur + maxLength) text.length))) with
    | c :: _ => cur + max minL 1 + c
    | [] =>
      match lastPunctIdx (pySlice text
          (max cur (min (cur + maxLength) text.length - lookahead))
          (min (cur + maxLength) text.length)) with
      | some b => max cur (min (cur + maxLength) text.length - lookahead) + b + 1
      | none => min (cur + maxLength) text.length

theorem pySlice_length (t : Str) (a b : Nat) :
    (pySlice t a b).length = min (b - a) (t.length - a) := by
  unfold pySlice
  simp [List.length_take, List.length_drop]

theorem nextCut_bounds (text : Str) (maxLength minL lookahead cur : Nat)
    (hml : 1 ≤ maxLength) (hmm : minL ≤ maxLength)
    (hrem : maxLength < text.length - cur) :
    cur < nextCut text maxLength minL lookahead cur ∧
      nextCut text maxLength minL lookahead cur ≤ cur + maxLength := by
  have hse : min (cur + maxLength) text.length = cur + maxLength := by omega
  have hwinlen : (pySlice text (cur + max minL 1) (min (cur + maxLength) text.length)).length
      = cur + maxLength - (cur + max minL 1) := by
    rw [pySlice_length]
    omega
  unfold nextCut
  split
  next s rest hstrong =>
    have hs := finditerStarts_lt heading_regex _ s
      (by rw [hstrong]; exact List.mem_cons_self _ _)
    rw [hwinlen] at hs
    constructor <;> omega
  next hstrong =>
    split
    next c rest hcand =>
      have hc := mem_sortedSet _ c (by rw [hcand]; exact List.mem_cons_self _ _)
      rw [List.mem_append, List.mem_append] at hc
      have hclt : c < cur + maxLength - (cur + max minL 1) := by
        rcases hc with (h1 | h2) | h3
        · have := finditerStarts_lt scene_regex _ c h1; rwa [hwinlen] at this
        · have := finditerStarts_lt paragraph_break_regex _ c h2; rwa [hwinlen] at this
        · have := finditerStarts_lt sentence_break_regex _ c h3; rwa [hwinlen] at this
      constructor <;> omega
    next hcand =>
      split
      next b hback =>
        have hb := lastPunctIdx_lt _ b hback
        have hblen : (pySlice text (max cur (min (cur + maxLength) text.length - lookahead))
            (min (cur + maxLength) text.length)).length
            ≤ min (cur + maxLength) text.length
              - max cur (min (cur + maxLength) text.length - lookahead) := by
          rw [pySlice_length]
          omega
        constructor <;> omega
      next hback =>
        constructor <;> omega

/-- The cursor loop of _split_by_length: emit the stripped remainder when at
most max_length remains, otherwise cut at nextCut and continue. The guard on
a cut that fails to advance models the divergence of the source in that
case (it never fires once max_length is at least one, see nextCut_bounds);
the structural fuel likewise never runs out when it starts at one more than
the text length, since the cursor strictly advances. -/
def split_by_length_loop (text : Str) (maxLength minL lookahead : Nat) :
    Nat → Nat → List Str
  | 0, _ => []
  | fuel + 1, cur =>
    if cur < text.length then
      if text.length - cur ≤ maxLength then
        if pyStrip (text.drop cur) = [] then [] else [pyStrip (text.drop cur)]
      else
        if cur < nextCut text maxLength minL lookahead cur then
          (if pyStrip (pySlice text cur (nextCut text maxLength minL lookahead cur)) = []
            then []
            else [pyStrip (pySlice text cur (nextCut text maxLength minL lookahead cur))])
            ++ split_by_length_loop text maxLength minL lookahead fuel
              (nextCut text maxLength minL lookahead cur)
        else []
    else []

/-- EnhancedCharacterExtractor._split_by_length: clamp min_length to
max_length, then run the cursor loop from position zero. The
environment-variable overrides of the source are modelled as the
parameters. -/
def split_by_length (text : Str) (maxLength minLength lookahead : Nat) : List Str :=
  split_by_length_loop text maxLength
    (if maxLength < minLength then maxLength else minLength) lookahead
    (text.length + 1) 0

theorem split_by_length_loop_le (text : Str) (maxLength minL lookahead : Nat)
    (hml : 1 ≤ maxLength) (hmm : minL ≤ maxLength) :
    ∀ fuel cur, ∀ s ∈ split_by_length_loop text maxLength minL lookahead fuel cur,
      s.length ≤ maxLength := by
  intro fuel
  induction fuel with
  | zero => intro cur s hs; simp [split_by_length_loop] at hs
  | succ fuel ih =>
    intro cur s hs
    rw [split_by_length_loop] at hs
    by_cases hc : cur < text.length
    · rw [if_pos hc] at hs
      by_cases hrem : text.length - cur ≤ maxLength
      · rw [if_pos hrem] at hs
        by_cases hnil : pyStrip (text.drop cur) = []
        · rw [if_pos hnil] at hs; simp at hs
        · rw [if_neg hnil] at hs
          have : s = pyStrip (text.drop cur) := by simpa using hs
          subst this
          calc (pyStrip (text.drop cur)).length ≤ (text.drop cur).length :=
                pyStrip_length_le _
            _ ≤ maxLength := by rw [List.length_drop]; omega
      · rw [if_neg hrem] at hs
        have hbound := nextCut_bounds text maxLength minL lookahead cur hml hmm (by omega)
        by_cases hcut : cur < nextCut text maxLength minL lookahead cur
        · rw [if_pos hcut, List.mem_append] at hs
          rcases hs with h1 | h2
          · have hlen : (pyStrip (pySlice text cur
                (nextCut text maxLength minL lookahead cur))).length ≤ maxLength := by
              calc (pyStrip (pySlice text cur
                    (nextCut text maxLength minL lookahead cur))).length
                  ≤ (pySlice text cur (nextCut text maxLength minL lookahead cur)).length :=
                    pyStrip_length_le _
                _ ≤ maxLength := by rw [pySlice_length]; omega
            by_cases hn : pyStrip (pySlice text cur
                (nextCut text maxLength minL lookahead cur)) = []
            · rw [if_pos hn] at h1; simp at h1
            · rw [if_neg hn] at h1
              have : s = pyStrip (pySlice text cur
                  (nextCut text maxLength minL lookahead cur)) := by
                simpa using h1
              subst this
              exact hlen
          · exact ih _ s h2
        · rw [if_neg hcut] at hs; simp at hs
    · rw [if_neg hc] at hs
      simp at hs

/-- Claim C6 (amended): after clamping, every segment returned by
_split_by_length — including the final one — has length at most max_length;
the min_length lower bound of the original claim does not hold (see the
counterexample). Positive max_length is assumed since the source loops
forever at zero. -/
theorem split_by_length_le (text : Str) (maxLength minLength lookahead : Nat)
    (hml : 1 ≤ maxLength) :
    ∀ s ∈ split_by_length text maxLength minLength lookahead,
      s.length ≤ maxLength := by
  intro s hs
  unfold split_by_length at hs
  refine split_by_length_loop_le text maxLength _ lookahead hml ?_ _ 0 s hs
  by_cases h : maxLength < minLength
  · rw [if_pos h]
  · rw [if_neg h]; omega

/-- Witness for the amended claim C6 at a concrete input. -/
theorem split_by_length_le_witness :
    1 ≤ 20 ∧ ∀ s ∈ split_by_length (toCl "First. Second piece of text here xxxx!") 20 10 20,
      s.length ≤ 20 :=
  ⟨by decide, split_by_length_le _ 20 10 20 (by decide)⟩

/-! ### The sliding-window splitter: _split_chapters_with_llm -/

/-- A segment of the split response: start and end offsets into the window
(end-exclusive). The title is ignored by the control flow, and entries
whose offsets cannot be coerced to integers are skipped by the source, so
they are absent from the model. The end field is named stop because end is
reserved. -/
structure SplitSeg where
  start : Int
  stop : Int

/-- Response of the split collaborator: the segments and the leftover_from
index (none models a missing or non-integer value). -/
structure SplitResp where
  segments : List SplitSeg
  leftover : Option Int

/-- The split collaborator: a function of the remaining iteration budget and
the window text; none models a raised exception or an empty payload. -/
abbrev SplitOracle := Nat → Str → Option SplitResp

/-- The leftover_from safeguard of the source: a missing, non-integer or
negative value becomes the window length, and the result is clamped to the
window length. -/
def effLeftoverW (window : Str) (lo : Option Int) : Nat :=
  match lo with
  | none => window.length
  | some v => if v < 0 then window.length else min v.toNat window.length

/-- The segment acceptance fold of the source: a segment is accepted when
its bounds lie inside the window, start at or after the previous accepted
end, and end at or before the effective leftover; accepted text is
recovered by local slicing of the window and appended when its strip is
non-blank (which also advances the last accepted end). -/
def acceptSegs (window : Str) (lf : Nat) (segs : List SplitSeg)
    (chapters : List Str) : List Str × Nat :=
  segs.foldl (fun st seg =>
    if 0 ≤ seg.start ∧ seg.start < seg.stop ∧ seg.stop ≤ (window.length : Int) ∧
        ((st.2 : Int) ≤ seg.start ∧ seg.stop ≤ (lf : Int)) then
      if pyStrip (pySlice window seg.start.toNat seg.stop.toNat) = [] then st
      else (st.1 ++ [pyStrip (pySlice window seg.start.toNat seg.stop.toNat)],
        seg.stop.toNat)
    else st) (chapters, 0)

/-- The final append of _split_chapters_with_llm: a non-blank carryover is
appended as a chapter. This also runs after the stall and
iteration-overflow breaks, whose remainder already contains the carryover,
duplicating that text. -/
def llmFinalize (chapters : List Str) (carry : Str) : List Str :=
  if carry ≠ [] ∧ pyStrip carry ≠ [] then chapters ++ [pyStrip carry] else chapters

/-- The window of one iteration: the carryover followed by the next
chunk-characters stride of the source text. -/
def llmWindow (tt : Str) (cc : Nat) (carry : Str) (cursor : Nat) : Str :=
  carry ++ pySlice tt cursor (min (cursor + cc) tt.length)

/-- The new carryover of one successful iteration: the window suffix from
the effective leftover on. -/
def llmNewCarry (tt : Str) (cc : Nat) (carry : Str) (cursor : Nat)
    (lo : Option Int) : Str :=
  (llmWindow tt cc carry cursor).drop (effLeftoverW (llmWindow tt cc carry cursor) lo)

/-- The chapters and last accepted end after the segment acceptance fold of
one successful iteration. -/
def llmAccepted (tt : Str) (cc : Nat) (carry : Str) (cursor : Nat)
    (chapters : List Str) (resp : SplitResp) : List Str × Nat :=
  acceptSegs (llmWindow tt cc carry cursor)
    (effLeftoverW (llmWindow tt cc carry cursor) resp.leftover)
    resp.segments chapters

/-- The stall counter after one successful iteration: incremented when no
new chapter was appended, the carryover did not shrink and no source text
remains, reset otherwise. -/
def llmStall (tt : Str) (cc : Nat) (chapters : List Str) (carry : Str)
    (cursor stall : Nat) (resp : SplitResp) : Nat :=
  if (llmAccepted tt cc carry cursor chapters resp).1.length = chapters.length ∧
      carry.length ≤ (llmNewCarry tt cc carry cursor resp.leftover).length ∧
      tt.length ≤ min (cursor + cc) tt.length
    then stall + 1 else 0

/-- The progress signature after one iteration: kept when it repeats with an
unshrunk carryover, else updated to the pair of cursor and new carryover
length. -/
def llmSig (tt : Str) (cc : Nat) (carry : Str) (cursor : Nat)
    (lastSig : Option (Nat × Nat)) (resp : SplitResp) : Option (Nat × Nat) :=
  if lastSig = some (cursor, (llmNewCarry tt cc carry cursor resp.leftover).length) ∧
      (llmNewCarry tt cc carry cursor resp.leftover).length = carry.length
    then lastSig else some (cursor, (llmNewCarry tt cc carry cursor resp.leftover).length)

/-- The chapters emitted when the stall bound is reached: the non-blank
remainder is appended whole in LLM-only mode, else split by length with the
fallback minimum (each non-blank part stripped and appended). -/
def llmStallEmit (tt : Str) (cc : Nat) (llmOnly : Bool) (fbMin : Nat)
    (carry : Str) (cursor : Nat) (chapters : List Str) (resp : SplitResp) : List Str :=
  if pyStrip (llmNewCarry tt cc carry cursor resp.leftover
      ++ tt.drop (min (cursor + cc) tt.length)) = [] then
    (llmAccepted tt cc carry cursor chapters resp).1
  else if llmOnly then
    (llmAccepted tt cc carry cursor chapters resp).1
      ++ [pyStrip (llmNewCarry tt cc carry cursor resp.leftover
          ++ tt.drop (min (cursor + cc) tt.length))]
  else
    (llmAccepted tt cc carry cursor chapters resp).1
      ++ (split_by_length (pyStrip (llmNewCarry tt cc carry cursor resp.leftover
            ++ tt.drop (min (cursor + cc) tt.length))) 14000 fbMin 4000).filterMap
          (fun part => if pyStrip part = [] then none else some (pyStrip part))

/-- Outcome of one loop iteration: stop with a chapter list, or continue
with the new state. -/
inductive LlmOut where
  | done (chapters : List Str)
  | cont (chapters : List Str) (carry : Str) (cursor stall : Nat)
      (lastSig : Option (Nat × Nat))

/-- The successful-response part of one iteration of the
_split_chapters_with_llm loop: accept segments, recompute the carryover
from the effective leftover, advance the cursor by the full stride, break
when the source is exhausted with a blank carryover (the final carryover
append still applies), after two consecutive stalls emit the remainder and
break, else continue. -/
def llmStep (tt : Str) (cc : Nat) (llmOnly : Bool) (fbMin : Nat)
    (chapters : List Str) (carry : Str) (cursor stall : Nat)
    (lastSig : Option (Nat × Nat)) (resp : SplitResp) : LlmOut :=
  if tt.length ≤ min (cursor + cc) tt.length ∧
      pyStrip (llmNewCarry tt cc carry cursor resp.leftover) = [] then
    .done (llmFinalize (llmAccepted tt cc carry cursor chapters resp).1
      (llmNewCarry tt cc carry cursor resp.leftover))
  else if 2 ≤ llmStall tt cc chapters carry cursor stall resp then
    .done (llmFinalize (llmStallEmit tt cc llmOnly fbMin carry cursor chapters resp)
      (llmNewCarry tt cc carry cursor resp.leftover))
  else
    .cont (llmAccepted tt cc carry cursor chapters resp).1
      (llmNewCarry tt cc carry cursor resp.leftover)
      (min (cursor + cc) tt.length)
      (llmStall tt cc chapters carry cursor stall resp)
      (llmSig tt cc carry cursor lastSig resp)

/-- The while-loop of _split_chapters_with_llm. The fuel is the remaining
iteration budget out of the max_iterations = 1000 of the source; at zero
(the source counter exceeding the bound) the remaining text is appended as
one chapter and the loop breaks. On a collaborator exception: in LLM-only
mode the whole window becomes one chapter and the carryover empties, else
the window is split by length, the first part becomes a chapter and the
rest is rejoined as the carryover. -/
def llmLoop (oracle : SplitOracle) (tt : Str) (chunkChars : Nat) (llmOnly : Bool)
    (fbMin : Nat) :
    Nat → List Str → Str → Nat → Nat → Option (Nat × Nat) → List Str
  | 0, chapters, carry, cursor, _, _ =>
    if cursor < tt.length ∨ carry ≠ [] then
      llmFinalize
        (if pyStrip (carry ++ tt.drop cursor) = [] then chapters
          else chapters ++ [pyStrip (carry ++ tt.drop cursor)]) carry
    else llmFinalize chapters carry
  | fuel + 1, chapters, carry, cursor, stall, lastSig =>
    if cursor < tt.length ∨ carry ≠ [] then
      if llmWindow tt chunkChars carry cursor = [] then
        llmFinalize chapters carry
      else
        match oracle fuel (llmWindow tt chunkChars carry cursor) with
        | some resp =>
          match llmStep tt chunkChars llmOnly fbMin chapters carry cursor stall lastSig resp with
          | .done cs => cs
          | .cont cs ca cu st ls =>
            llmLoop oracle tt chunkChars llmOnly fbMin fuel cs ca cu st ls
        | none =>
          if llmOnly then
            llmLoop oracle tt chunkChars llmOnly fbMin fuel
              (if pyStrip (llmWindow tt chunkChars carry cursor) = [] then chapters
                else chapters ++ [pyStrip (llmWindow tt chunkChars carry cursor)])
              [] (min (cursor + chunkChars) tt.length) stall lastSig
          else
            match split_by_length (llmWindow tt chunkChars carry cursor) 14000 fbMin 4000 with
            | [] => llmLoop oracle tt chunkChars llmOnly fbMin fuel
                chapters carry (min (cursor + chunkChars) tt.length) stall lastSig
            | p :: rest => llmLoop oracle tt chunkChars llmOnly fbMin fuel
                (chapters ++ [p]) (joinSep ['\n', '\n'] rest)
                (min (cursor + chunkChars) tt.length) stall lastSig
    else llmFinalize chapters carry

/-- _split_chapters_with_llm: optional input truncation, window size of
approximately four thousand tokens converted to characters (floor eight
thousand), then the window loop with the iteration budget of the source.
The environment-derived LLM-only flag and fallback minimum length are
parameters. -/
def split_chapters_with_llm (oracle : SplitOracle) (text0 : Str)
    (approxTokensPerCall charsPerToken : Nat) (maxInputChars : Option Nat)
    (llmOnly : Bool) (fbMin : Nat) : List Str :=
  if text0 = [] then []
  else
    llmLoop oracle
      (match maxInputChars with
        | some m => if 0 < m ∧ m < text0.length then text0.take m else text0
        | none => text0)
      (max (approxTokensPerCall * charsPerToken) 8000) llmOnly fbMin
      1000 [] [] 0 0 none

/-! Slice arithmetic used by the sliding-window proofs. -/

theorem pySlice_drop (t : Str) (a b k : Nat) :
    (pySlice t a b).drop k = pySlice t (a + k) b := by
  unfold pySlice
  rw [List.drop_take, List.drop_drop]
  congr 1
  omega

theorem pySlice_append_slice (t : Str) (a b c : Nat) (hab : a ≤ b) (hbc : b ≤ c) :
    pySlice t a b ++ pySlice t b c = pySlice t a c := by
  unfold pySlice
  have hd : t.drop b = (t.drop a).drop (b - a) := by
    rw [List.drop_drop]
    congr 1
    omega
  rw [hd]
  have : c - a = (b - a) + (c - b) := by omega
  rw [this, List.take_add]

theorem pySlice_append_dropTail (t : Str) (a b : Nat) (hab : a ≤ b) :
    pySlice t a b ++ t.drop b = t.drop a := by
  unfold pySlice
  have hd : t.drop b = ((t.drop a).take (b - a) ++ (t.drop a).drop (b - a)).drop (b - a) := by
    rw [List.take_append_drop, List.drop_drop]
    congr 1
    omega
  rw [List.take_append_drop] at hd
  rw [hd, List.take_append_drop]

theorem drop_eq_pySlice (t : Str) (a : Nat) : t.drop a = pySlice t a t.length := by
  unfold pySlice
  rw [List.take_of_length_le (by simp)]

theorem pySlice_pySlice (t : Str) (a b s e : Nat) (he : e ≤ b - a) :
    pySlice (pySlice t a b) s e = pySlice t (a + s) (a + e) := by
  unfold pySlice
  rw [List.drop_take, List.drop_drop, List.take_take]
  have h1 : e - s ≤ b - a - s := by omega
  have h2 : min (e - s) (b - a - s) = e - s := by omega
  have h3 : a + e - (a + s) = e - s := by omega
  rw [h2, h3]

theorem pySlice_take (t : Str) (m a b : Nat) (hbm : b ≤ m) :
    pySlice (t.take m) a b = pySlice t a b := by
  unfold pySlice
  rw [List.drop_take, List.take_take]
  congr 1
  omega

theorem pySlice_nil (t : Str) (a : Nat) : pySlice t a a = [] := by
  unfold pySlice
  simp

/-- The chapter text is the whitespace-strip of a contiguous slice of the
text. -/
def StripSliceOf (tt c : Str) : Prop :=
  ∃ a b, a ≤ b ∧ b ≤ tt.length ∧ c = pyStrip (pySlice tt a b)

theorem stripSliceOf_slice (tt : Str) (a b : Nat) (hab : a ≤ b) (hb : b ≤ tt.length) :
    StripSliceOf tt (pyStrip (pySlice tt a b)) := ⟨a, b, hab, hb, rfl⟩

theorem stripSliceOf_drop (tt : Str) (a : Nat) (ha : a ≤ tt.length) :
    StripSliceOf tt (pyStrip (tt.drop a)) := by
  rw [drop_eq_pySlice]
  exact stripSliceOf_slice tt a tt.length ha (le_refl _)

theorem llmFinalize_slices (tt : Str) (chapters : List Str) (carry : Str)
    (hch : ∀ c ∈ chapters, StripSliceOf tt c)
    (hc : ∃ x y, x ≤ y ∧ y ≤ tt.length ∧ carry = pySlice tt x y) :
    ∀ c ∈ llmFinalize chapters carry, StripSliceOf tt c := by
  intro c hmem
  unfold llmFinalize at hmem
  split at hmem
  · rw [List.mem_append] at hmem
    rcases hmem with h | h
    · exact hch c h
    · obtain ⟨x, y, hxy, hy, rfl⟩ := hc
      have : c = pyStrip (pySlice tt x y) := by simpa using h
      subst this
      exact stripSliceOf_slice tt x y hxy hy
  · exact hch c hmem

theorem foldl_acceptSegs_slices (tt window : Str) (x m : Nat)
    (hwin : window = pySlice tt x m) (hxm : x ≤ m) (hm : m ≤ tt.length)
    (lf : Nat) :
    ∀ (segs : List SplitSeg) (st : List Str × Nat),
      (∀ c ∈ st.1, StripSliceOf tt c) →
      ∀ c ∈ (segs.foldl (fun (st : List Str × Nat) seg =>
          if 0 ≤ seg.start ∧ seg.start < seg.stop ∧ seg.stop ≤ (window.length : Int) ∧
              ((st.2 : Int) ≤ seg.start ∧ seg.stop ≤ (lf : Int)) then
            if pyStrip (pySlice window seg.start.toNat seg.stop.toNat) = [] then st
            else (st.1 ++ [pyStrip (pySlice window seg.start.toNat seg.stop.toNat)],
              seg.stop.toNat)
          else st) st).1, StripSliceOf tt c := by
  have hwl : window.length = m - x := by
    rw [hwin, pySlice_length]
    omega
  intro segs
  induction segs with
  | nil => intro st hst c hc; exact hst c hc
  | cons seg rest ih =>
    intro st hst c hc
    rw [List.foldl_cons] at hc
    refine ih _ ?_ c hc
    intro d hd
    by_cases hok : 0 ≤ seg.start ∧ seg.start < seg.stop ∧
        seg.stop ≤ (window.length : Int) ∧
        ((st.2 : Int) ≤ seg.start ∧ seg.stop ≤ (lf : Int))
    · rw [if_pos hok] at hd
      by_cases hnil : pyStrip (pySlice window seg.start.toNat seg.stop.toNat) = []
      · rw [if_pos hnil] at hd
        exact hst d hd
      · rw [if_neg hnil] at hd
        simp only at hd
        rw [List.mem_append] at hd
        rcases hd with hd | hd
        · exact hst d hd
        · have hdeq : d = pyStrip (pySlice window seg.start.toNat seg.stop.toNat) := by
            simpa using hd
          subst hdeq
          obtain ⟨h0, hlt, hle, _, _⟩ := hok
          have hes : seg.start.toNat ≤ seg.stop.toNat := by omega
          have heb : seg.stop.toNat ≤ window.length := by omega
          rw [hwin, pySlice_pySlice tt x m _ _ (by omega)]
          exact stripSliceOf_slice tt _ _ (by omega) (by omega)
    · rw [if_neg hok] at hd
      exact hst d hd

/-- Specialization to the acceptance fold of the splitter. -/
theorem acceptSegs_slices (tt window : Str) (x m : Nat)
    (hwin : window = pySlice tt x m) (hxm : x ≤ m) (hm : m ≤ tt.length)
    (lf : Nat) (segs : List SplitSeg) (chapters : List Str)
    (hch : ∀ c ∈ chapters, StripSliceOf tt c) :
    ∀ c ∈ (acceptSegs window lf segs chapters).1, StripSliceOf tt c := by
  unfold acceptSegs
  exact foldl_acceptSegs_slices tt window x m hwin hxm hm lf segs (chapters, 0) hch

theorem effLeftoverW_le (window : Str) (lo : Option Int) :
    effLeftoverW window lo ≤ window.length := by
  cases lo with
  | none => simp [effLeftoverW]
  | some v =>
    simp only [effLeftoverW]
    by_cases hv : v < 0
    · rw [if_pos hv]
    · rw [if_neg hv]
      omega

theorem llmStep_slices (tt : Str) (cc fbMin : Nat) (chapters : List Str) (carry : Str)
    (cursor stall : Nat) (lastSig : Option (Nat × Nat)) (resp : SplitResp)
    (hch : ∀ c ∈ chapters, StripSliceOf tt c)
    (hcarry : ∃ x, x ≤ cursor ∧ carry = pySlice tt x cursor)
    (hcur : cursor ≤ tt.length) :
    (∀ cs, llmStep tt cc true fbMin chapters carry cursor stall lastSig resp = .done cs →
      ∀ c ∈ cs, StripSliceOf tt c) ∧
    (∀ cs ca cu st ls,
      llmStep tt cc true fbMin chapters carry cursor stall lastSig resp
        = .cont cs ca cu st ls →
      (∀ c ∈ cs, StripSliceOf tt c) ∧ (∃ y, y ≤ cu ∧ ca = pySlice tt y cu) ∧
        cu ≤ tt.length) := by
  obtain ⟨x, hx, hcarrye⟩ := hcarry
  have hcm : cursor ≤ min (cursor + cc) tt.length := by omega
  have hm : min (cursor + cc) tt.length ≤ tt.length := by omega
  have hxm : x ≤ min (cursor + cc) tt.length := by omega
  have hwin : llmWindow tt cc carry cursor = pySlice tt x (min (cursor + cc) tt.length) := by
    unfold llmWindow
    rw [hcarrye, pySlice_append_slice tt x cursor _ hx hcm]
  have hwl : (llmWindow tt cc carry cursor).length = min (cursor + cc) tt.length - x := by
    rw [hwin, pySlice_length]
    omega
  have hlf : effLeftoverW (llmWindow tt cc carry cursor) resp.leftover
      ≤ (llmWindow tt cc carry cursor).length := effLeftoverW_le _ _
  have hy : x + effLeftoverW (llmWindow tt cc carry cursor) resp.leftover
      ≤ min (cursor + cc) tt.length := by omega
  have hnc : llmNewCarry tt cc carry cursor resp.leftover
      = pySlice tt (x + effLeftoverW (llmWindow tt cc carry cursor) resp.leftover)
        (min (cursor + cc) tt.length) := by
    unfold llmNewCarry
    rw [hwin, pySlice_drop]
  have hAcc : ∀ c ∈ (llmAccepted tt cc carry cursor chapters resp).1, StripSliceOf tt c := by
    unfold llmAccepted
    exact acceptSegs_slices tt _ x (min (cursor + cc) tt.length) hwin hxm hm _
      resp.segments chapters hch
  have hNCslice : ∃ a b, a ≤ b ∧ b ≤ tt.length ∧
      llmNewCarry tt cc carry cursor resp.leftover = pySlice tt a b :=
    ⟨_, _, hy, hm, hnc⟩
  have hRem : StripSliceOf tt (pyStrip (llmNewCarry tt cc carry cursor resp.leftover
      ++ tt.drop (min (cursor + cc) tt.length))) := by
    rw [hnc, pySlice_append_dropTail tt _ _ hy]
    exact stripSliceOf_drop tt _ (by omega)
  constructor
  · intro cs hcs c hc
    unfold llmStep at hcs
    split at hcs
    · obtain rfl : llmFinalize (llmAccepted tt cc carry cursor chapters resp).1
          (llmNewCarry tt cc carry cursor resp.leftover) = cs := by
        simpa using hcs
      exact llmFinalize_slices tt _ _ hAcc hNCslice c hc
    · split at hcs
      · obtain rfl : llmFinalize (llmStallEmit tt cc true fbMin carry cursor chapters resp)
            (llmNewCarry tt cc carry cursor resp.leftover) = cs := by
          simpa using hcs
        refine llmFinalize_slices tt _ _ ?_ hNCslice c hc
        intro d hd
        unfold llmStallEmit at hd
        split at hd
        · exact hAcc d hd
        · rw [if_pos rfl] at hd
          rw [List.mem_append] at hd
          rcases hd with hd | hd
          · exact hAcc d hd
          · have : d = pyStrip (llmNewCarry tt cc carry cursor resp.leftover
                ++ tt.drop (min (cursor + cc) tt.length)) := by simpa using hd
            subst this
            exact hRem
      · simp at hcs
  · intro cs ca cu st ls hcs
    unfold llmStep at hcs
    split at hcs
    · simp at hcs
    · split at hcs
      · simp at hcs
      · obtain ⟨rfl, rfl, rfl, rfl, rfl⟩ :
            (llmAccepted tt cc carry cursor chapters resp).1 = cs ∧
            llmNewCarry tt cc carry cursor resp.leftover = ca ∧
            min (cursor + cc) tt.length = cu ∧
            llmStall tt cc chapters carry cursor stall resp = st ∧
            llmSig tt cc carry cursor lastSig resp = ls := by
          cases hcs
          exact ⟨rfl, rfl, rfl, rfl, rfl⟩
        exact ⟨hAcc, ⟨_, hy, hnc⟩, hm⟩

theorem llmLoop_slices (oracle : SplitOracle) (tt : Str) (cc fbMin : Nat) :
    ∀ (fuel : Nat) (chapters : List Str) (carry : Str) (cursor stall : Nat)
      (lastSig : Option (Nat × Nat)),
      (∀ c ∈ chapters, StripSliceOf tt c) →
      (∃ x, x ≤ cursor ∧ carry = pySlice tt x cursor) → cursor ≤ tt.length →
      ∀ c ∈ llmLoop oracle tt cc true fbMin fuel chapters carry cursor stall lastSig,
        StripSliceOf tt c := by
  intro fuel
  induction fuel with
  | zero =>
    intro chapters carry cursor stall lastSig hch hcarry hcur c hc
    obtain ⟨x, hx, rfl⟩ := hcarry
    have hcs : ∃ a b, a ≤ b ∧ b ≤ tt.length ∧ pySlice tt x cursor = pySlice tt a b :=
      ⟨x, cursor, hx, hcur, rfl⟩
    rw [llmLoop] at hc
    split at hc
    · refine llmFinalize_slices tt _ _ ?_ hcs c hc
      intro d hd
      split at hd
      · exact hch d hd
      · rw [List.mem_append] at hd
        rcases hd with hd | hd
        · exact hch d hd
        · have : d = pyStrip (pySlice tt x cursor ++ tt.drop cursor) := by simpa using hd
          subst this
          rw [pySlice_append_dropTail tt x cursor hx]
          exact stripSliceOf_drop tt x (by omega)
    · exact llmFinalize_slices tt _ _ hch hcs c hc
  | succ fuel ih =>
    intro chapters carry cursor stall lastSig hch hcarry hcur c hc
    rw [llmLoop] at hc
    split at hc
    · by_cases hwe : llmWindow tt cc carry cursor = []
      · rw [if_pos hwe] at hc
        obtain ⟨x, hx, rfl⟩ := hcarry
        exact llmFinalize_slices tt _ _ hch ⟨x, cursor, hx, hcur, rfl⟩ c hc
      · rw [if_neg hwe] at hc
        cases ho : oracle fuel (llmWindow tt cc carry cursor) with
        | some resp =>
          rw [ho] at hc
          dsimp only at hc
          have hstep := llmStep_slices tt cc fbMin chapters carry cursor stall lastSig
            resp hch hcarry hcur
          cases hso : llmStep tt cc true fbMin chapters carry cursor stall lastSig resp with
          | done cs =>
            rw [hso] at hc
            exact hstep.1 cs hso c hc
          | cont cs ca cu st ls =>
            rw [hso] at hc
            obtain ⟨hcs, hca, hcu⟩ := hstep.2 cs ca cu st ls hso
            exact ih cs ca cu st ls hcs hca hcu c hc
        | none =>
          rw [ho] at hc
          dsimp only at hc
          obtain ⟨x, hx, hcarrye⟩ := hcarry
          have hwin : llmWindow tt cc carry cursor
              = pySlice tt x (min (cursor + cc) tt.length) := by
            unfold llmWindow
            rw [hcarrye, pySlice_append_slice tt x cursor _ hx (by omega)]
          refine ih _ _ _ _ _ ?_
            ⟨min (cursor + cc) tt.length, le_refl _, (pySlice_nil tt _).symm⟩
            (by omega) c hc
          intro d hd
          split at hd
          · exact hch d hd
          · rw [List.mem_append] at hd
            rcases hd with hd | hd
            · exact hch d hd
            · have : d = pyStrip (llmWindow tt cc carry cursor) := by simpa using hd
              subst this
              rw [hwin]
              exact stripSliceOf_slice tt x _ (by omega) (by omega)
    · obtain ⟨x, hx, rfl⟩ := hcarry
      exact llmFinalize_slices tt _ _ hch ⟨x, cursor, hx, hcur, rfl⟩ c hc

/-- Claim C1 (amended): in LLM-only mode, whatever the collaborator
returns, every chapter produced by the sliding-window splitter is the
whitespace-strip of one contiguous slice of the input text — no characters
are fabricated — but window text unclaimed by accepted segments is dropped
and the carried-over tail can even be emitted twice after a stall, so
concatenating the chapters does not in general reproduce the input. -/
theorem split_chapters_with_llm_slices (oracle : SplitOracle) (text0 : Str)
    (approx cpt : Nat) (maxInput : Option Nat) (fbMin : Nat) :
    ∀ c ∈ split_chapters_with_llm oracle text0 approx cpt maxInput true fbMin,
      ∃ a b, a ≤ b ∧ b ≤ text0.length ∧ c = pyStrip (pySlice text0 a b) := by
  intro c hc
  unfold split_chapters_with_llm at hc
  by_cases ht : text0 = []
  · rw [if_pos ht] at hc
    simp at hc
  · rw [if_neg ht] at hc
    have hss := llmLoop_slices oracle _ _ fbMin 1000 [] [] 0 0 none
      (by intro d hd; simp at hd)
      ⟨0, le_refl _, (pySlice_nil _ 0).symm⟩ (by omega) c hc
    cases maxInput with
    | none => exact hss
    | some m =>
      by_cases hcl : 0 < m ∧ m < text0.length
      · dsimp only at hss
        rw [if_pos hcl] at hss
        obtain ⟨a, b, hab, hb, rfl⟩ := hss
        have hlen : (text0.take m).length = m := by
          rw [List.length_take]
          omega
        rw [hlen] at hb
        exact ⟨a, b, hab, by omega, by rw [pySlice_take text0 m a b hb]⟩
      · dsimp only at hss
        rw [if_neg hcl] at hss
        exact hss

/-- Witness for the amended claim C1: a concrete run with a failing
collaborator, whose single chapter is a strip of a slice of the input. -/
theorem split_chapters_with_llm_slices_witness :
    toCl "abc def" ∈ split_chapters_with_llm (fun _ _ => none) (toCl "abc def")
      4000 3 none true 8000 ∧
    ∃ a b, a ≤ b ∧ b ≤ (toCl "abc def").length ∧
      toCl "abc def" = pyStrip (pySlice (toCl "abc def") a b) :=
  ⟨by decide, split_chapters_with_llm_slices (fun _ _ => none) (toCl "abc def")
    4000 3 none 8000 (toCl "abc def") (by decide)⟩

/-- Claim C1 counterexample: a collaborator response claiming only window
offsets 5 to 10 of a fifteen-character input (a well-formed response) makes
the sliding-window splitter return just that middle slice: the unclaimed
text before and after the accepted segment is dropped, so the concatenated
output no longer contains the characters of the input even after all
whitespace is ignored. -/
theorem split_chapters_with_llm_drops_text :
    split_chapters_with_llm (fun _ _ => some ⟨[⟨5, 10⟩], none⟩)
      (toCl "aaaaabbbbbccccc") 4000 3 none true 8000 = [toCl "bbbbb"] ∧
    removeWs (split_chapters_with_llm (fun _ _ => some ⟨[⟨5, 10⟩], none⟩)
        (toCl "aaaaabbbbbccccc") 4000 3 none true 8000).flatten
      ≠ removeWs (toCl "aaaaabbbbbccccc") := by
  constructor
  · decide
  · decide

/-- The always-empty stub of claim C2: empty segments and leftover_from
equal to the window length on every call. -/
def emptyFullStub : SplitOracle := fun _ w => some ⟨[], some (w.length : Int)⟩

/-- Claim C2 counterexample: on the non-empty input below, the stub that
always returns empty segments with leftover_from equal to the window length
makes _split_chapters_with_llm return the empty list — the whole text is
discarded, no stall is ever counted, and no final segment is emitted. -/
theorem split_chapters_with_llm_empty_stub_counterexample :
    toCl "Hello world story text" ≠ [] ∧
    split_chapters_with_llm emptyFullStub (toCl "Hello world story text")
      4000 3 none true 8000 = [] := by
  constructor
  · decide
  · decide

theorem llmStep_empty_full (tt : Str) (cc : Nat) (llmOnly : Bool) (fbMin : Nat)
    (cursor stall : Nat) (lastSig : Option (Nat × Nat)) :
    llmStep tt cc llmOnly fbMin [] [] cursor stall lastSig
      ⟨[], some (((llmWindow tt cc [] cursor).length : Nat) : Int)⟩ =
      if tt.length ≤ cursor + cc then .done []
      else .cont [] [] (min (cursor + cc) tt.length) 0 (some (cursor, 0)) := by
  have hlf : effLeftoverW (llmWindow tt cc [] cursor)
      (some (((llmWindow tt cc [] cursor).length : Nat) : Int))
      = (llmWindow tt cc [] cursor).length := by
    simp [effLeftoverW]
  have hnc : llmNewCarry tt cc [] cursor
      (some (((llmWindow tt cc [] cursor).length : Nat) : Int)) = [] := by
    unfold llmNewCarry
    rw [hlf, List.drop_length]
  have hacc : llmAccepted tt cc [] cursor []
      ⟨[], some (((llmWindow tt cc [] cursor).length : Nat) : Int)⟩ = ([], 0) := by
    unfold llmAccepted acceptSegs
    rfl
  have hstall : llmStall tt cc [] [] cursor stall
      ⟨[], some (((llmWindow tt cc [] cursor).length : Nat) : Int)⟩
      = if tt.length ≤ cursor + cc then stall + 1 else 0 := by
    unfold llmStall
    dsimp only
    rw [hacc, hnc]
    by_cases hend : tt.length ≤ cursor + cc
    · rw [min_eq_right hend]
      simp [hend]
    · simp [hend]
  have hsig : llmSig tt cc [] cursor lastSig
      ⟨[], some (((llmWindow tt cc [] cursor).length : Nat) : Int)⟩
      = some (cursor, 0) := by
    unfold llmSig
    dsimp only
    rw [hnc]
    by_cases hls : lastSig = some (cursor, ([] : Str).length) ∧
        ([] : Str).length = ([] : Str).length
    · rw [if_pos hls]
      exact hls.1.trans (by simp)
    · simp only [if_neg hls]
      simp
  unfold llmStep
  dsimp only
  rw [hnc, hacc, hstall, hsig]
  by_cases hend : tt.length ≤ cursor + cc
  · have hcond : tt.length ≤ min (cursor + cc) tt.length ∧
        pyStrip ([] : Str) = ([] : Str) := ⟨by omega, rfl⟩
    rw [if_pos hcond, if_pos hend]
    simp [llmFinalize]
  · have hcond : ¬ (tt.length ≤ min (cursor + cc) tt.length ∧
        pyStrip ([] : Str) = ([] : Str)) := by
      intro hcon
      have := hcon.1
      omega
    rw [if_neg hcond]
    simp only [if_neg hend]
    simp

theorem llmLoop_empty_stub (tt : Str) (cc : Nat) (llmOnly : Bool) (fbMin : Nat)
    (hcc : 1 ≤ cc) :
    ∀ (fuel cursor stall : Nat) (lastSig : Option (Nat × Nat)),
      tt.length ≤ cursor + fuel * cc →
      llmLoop emptyFullStub tt cc llmOnly fbMin fuel [] [] cursor stall lastSig = [] := by
  intro fuel
  induction fuel with
  | zero =>
    intro cursor stall lastSig hf
    have hcond : ¬ (cursor < tt.length ∨ ([] : Str) ≠ []) := by
      simp
      omega
    rw [llmLoop, if_neg hcond]
    simp [llmFinalize]
  | succ fuel ih =>
    intro cursor stall lastSig hf
    by_cases hc : cursor < tt.length
    · rw [llmLoop, if_pos (Or.inl hc)]
      have hwlen : (llmWindow tt cc [] cursor).length
          = min (cursor + cc) tt.length - cursor := by
        unfold llmWindow
        rw [List.nil_append, pySlice_length]
        omega
      have hwne : llmWindow tt cc [] cursor ≠ [] := by
        intro he
        rw [he] at hwlen
        simp at hwlen
        omega
      rw [if_neg hwne]
      have ho : emptyFullStub fuel (llmWindow tt cc [] cursor)
          = some ⟨[], some (((llmWindow tt cc [] cursor).length : Nat) : Int)⟩ := rfl
      rw [ho]
      dsimp only
      rw [llmStep_empty_full]
      by_cases hend : tt.length ≤ cursor + cc
      · rw [if_pos hend]
      · rw [if_neg hend]
        dsimp only
        have hb : tt.length ≤ (cursor + cc) + fuel * cc := by
          calc tt.length ≤ cursor + (fuel + 1) * cc := hf
          _ = (cursor + cc) + fuel * cc := by ring
        have hmin : min (cursor + cc) tt.length = cursor + cc := by omega
        rw [hmin]
        exact ih (cursor + cc) 0 (some (cursor, 0)) hb
    · have hcond : ¬ (cursor < tt.length ∨ ([] : Str) ≠ []) := by
        simp
        omega
      rw [llmLoop, if_neg hcond]
      simp [llmFinalize]

/-- Claim C2 (amended): with the stub that always answers empty segments and
leftover_from equal to the window length, _split_chapters_with_llm does
terminate, but it returns the empty list (for any input within the
1000-iteration safety cap): every window is consumed with an empty
carryover, no segment is accepted, and the loop exits when the source is
exhausted before any stall is counted, discarding the whole text. The
non-empty whole-text result appears only in the caller, which replaces an
empty chapter list by the entire text in LLM-only mode. -/
theorem split_chapters_with_llm_empty_stub (text0 : Str) (approx cpt : Nat)
    (maxInput : Option Nat) (llmOnly : Bool) (fbMin : Nat)
    (hlen : text0.length ≤ 1000 * max (approx * cpt) 8000) :
    split_chapters_with_llm emptyFullStub text0 approx cpt maxInput llmOnly fbMin
      = [] := by
  unfold split_chapters_with_llm
  by_cases ht : text0 = []
  · rw [if_pos ht]
  · rw [if_neg ht]
    have hsub : ∀ tt : Str, tt.length ≤ text0.length →
        llmLoop emptyFullStub tt (max (approx * cpt) 8000) llmOnly fbMin
          1000 [] [] 0 0 none = [] := by
      intro tt htle
      exact llmLoop_empty_stub tt _ llmOnly fbMin (by omega) 1000 0 0 none (by omega)
    cases maxInput with
    | none => exact hsub text0 (le_refl _)
    | some m =>
      by_cases hcl : 0 < m ∧ m < text0.length
      · dsimp only
        rw [if_pos hcl]
        exact hsub (text0.take m) (by rw [List.length_take]; omega)
      · dsimp only
        rw [if_neg hcl]
        exact hsub text0 (le_refl _)

/-- Witness for the amended claim C2 at a concrete non-empty input. -/
theorem split_chapters_with_llm_empty_stub_witness :
    (toCl "A short story that fits one window.").length ≤ 1000 * max (4000 * 3) 8000 ∧
    split_chapters_with_llm emptyFullStub (toCl "A short story that fits one window.")
      4000 3 none true 8000 = [] :=
  ⟨by decide, split_chapters_with_llm_empty_stub (toCl "A short story that fits one window.")
    4000 3 none true 8000 (by decide)⟩

/-- The text of the claim C6 counterexample: a short sentence followed by
twenty-eight letters with no later boundary of any kind. -/
def cex6Text : Str := toCl "a.bbbbbbbbbbbbbbbbbbbbbbbbbbbb"

/-- Claim C6 counterexample: with min_length 10, max_length 20 and lookahead
20 (min_length below max_length, so clamping changes nothing), the splitter
emits the non-final segment a-dot of length 2, below min_length: the
backward punctuation scan cuts right after the first period. -/
theorem split_by_length_short_segment :
    split_by_length cex6Text 20 10 20 =
      [toCl "a.", toCl "bbbbbbbbbbbbbbbbbbbb", toCl "bbbbbbbb"] ∧
    (toCl "a.").length < 10 := by
  constructor
  · decide
  · decide

/-- Witness for the amended claim C3 on a concrete non-degenerate batch with
a failing collaborator. -/
theorem mergeBatchStep_carry_monotone_witness :
    (0 : Nat) < 3 ∧ 1 ≤ 2 ∧
    (0 ≤ (mergeBatchStep (fun _ _ => none) 3 2 [] 0).2 ∧
     (mergeBatchStep (fun _ _ => none) 3 2 [] 0).2 ≤ 3 ∧
     ((mergeBatchStep (fun _ _ => none) 3 2 [] 0).2 = 0 →
       ∃ r, (fun (_ _ : Nat) => (none : Option MergeResp)) 0 (min (0 + 2) 3) = some r ∧
         r.leftover = some ((0 : Nat) : Int))) :=
  ⟨by decide, by decide, mergeBatchStep_carry_monotone (fun _ _ => none) 3 2 [] 0
    (by decide) (by decide)⟩

/-! The minimum-length merge pass _ensure_min_length. -/

/-- The buffer update of one loop iteration of _ensure_min_length: the
segment alone when the buffer is empty, else the buffer, a blank line and
the segment. -/
def emlBuf (buffer seg : Str) : Str :=
  if buffer = [] then seg else buffer ++ '\n' :: '\n' :: seg

/-- One loop iteration of _ensure_min_length: extend the buffer with the
segment, and when the buffer reaches the minimum flush its strip into the
merged list. -/
def emlStep (minimum : Nat) (st : List Str × Str) (seg : Str) : List Str × Str :=
  if minimum ≤ (emlBuf st.2 seg).length then
    (st.1 ++ [pyStrip (emlBuf st.2 seg)], [])
  else (st.1, emlBuf st.2 seg)

/-- The tail handling of _ensure_min_length: a remaining non-empty buffer is
merged into the last flushed segment when one exists and the buffer is
undersized, else appended as its own segment. -/
def emlFinish (minimum : Nat) (st : List Str × Str) : List Str :=
  if st.2 ≠ [] then
    if st.1 ≠ [] ∧ st.2.length < minimum then
      st.1.dropLast ++ [pyStrip (st.1.getLastD [] ++ '\n' :: '\n' :: st.2)]
    else st.1 ++ [pyStrip st.2]
  else st.1

/-- _ensure_min_length: empty input passes through, a total length at or
below the minimum is joined into a single stripped segment, else adjacent
segments are buffered up to the minimum and flushed. -/
def ensure_min_length (segments : List Str) (minimum : Nat) : List Str :=
  if segments = [] then []
  else if (segments.map List.length).sum ≤ minimum then
    [pyStrip (joinSep ['\n', '\n'] segments)]
  else emlFinish minimum (segments.foldl (emlStep minimum) ([], []))

theorem pyStrip_head_not_space (l : Str) (c : Char)
    (hc : (pyStrip l).head? = some c) : pyIsSpace c = false := by
  unfold pyStrip at hc
  rw [List.head?_reverse] at hc
  rcases getLast?_dropWhile pyIsSpace (l.dropWhile pyIsSpace).reverse with h0 | heq
  · rw [h0] at hc
    simp at hc
  · rw [heq, List.getLast?_reverse] at hc
    exact head?_dropWhile_notP pyIsSpace l c hc

theorem pyStrip_last_not_space (l : Str) (c : Char)
    (hc : (pyStrip l).getLast? = some c) : pyIsSpace c = false := by
  unfold pyStrip at hc
  rw [List.getLast?_reverse] at hc
  exact head?_dropWhile_notP pyIsSpace _ c hc

theorem pyStrip_eq_self_of_edges (l : Str)
    (hh : ∀ c, l.head? = some c → pyIsSpace c = false)
    (hl : ∀ c, l.getLast? = some c → pyIsSpace c = false) : pyStrip l = l := by
  unfold pyStrip
  rw [dropWhile_eq_self_of_head pyIsSpace l hh]
  rw [dropWhile_eq_self_of_head pyIsSpace l.reverse
    (fun c hc => hl c (by rwa [List.head?_reverse] at hc))]
  exact List.reverse_reverse l

/-- Joining two non-empty stripped texts with a blank line yields a text the
strip leaves unchanged: both edges stay non-blank. -/
theorem clean_sep_append (s t : Str) (hs : s ≠ []) (ht : t ≠ [])
    (hcs : pyStrip s = s) (hct : pyStrip t = t) :
    pyStrip (s ++ '\n' :: '\n' :: t) = s ++ '\n' :: '\n' :: t := by
  refine pyStrip_eq_self_of_edges _ ?_ ?_
  · intro c hc
    cases s with
    | nil => exact absurd rfl hs
    | cons a s' =>
      rw [List.cons_append] at hc
      have hac : a = c := by simpa using hc
      refine pyStrip_head_not_space (a :: s') c ?_
      rw [hcs, List.head?_cons, hac]
  · intro c hc
    rw [List.getLast?_append, show ('\n' :: '\n' :: t) = ['\n', '\n'] ++ t from rfl,
      List.getLast?_append] at hc
    obtain ⟨y, hy⟩ := Option.isSome_iff_exists.mp (List.getLast?_isSome.mpr ht)
    rw [hy] at hc
    have hyc : y = c := by simpa using hc
    refine pyStrip_last_not_space t c ?_
    rw [hct, hy, hyc]

theorem emlBuf_len (buffer seg : Str) :
    buffer.length + seg.length ≤ (emlBuf buffer seg).length := by
  unfold emlBuf
  by_cases h : buffer = []
  · simp [h]
  · simp [h]
    omega

theorem emlBuf_clean (buffer seg : Str) (hb : buffer = [] ∨ pyStrip buffer = buffer)
    (hseg : seg ≠ []) (hcseg : pyStrip seg = seg) :
    pyStrip (emlBuf buffer seg) = emlBuf buffer seg := by
  unfold emlBuf
  by_cases h : buffer = []
  · rw [if_pos h]
    exact hcseg
  · rw [if_neg h]
    rcases hb with hb | hb
    · exact absurd hb h
    · exact clean_sep_append buffer seg h hseg hb hcseg

theorem getLastD_mem : ∀ (l : List Str) (d : Str), l ≠ [] → l.getLastD d ∈ l := by
  intro l
  induction l with
  | nil => intro d h; exact absurd rfl h
  | cons a l ih =>
    intro d _
    rw [List.getLastD_cons]
    cases hl : l with
    | nil => simp [List.getLastD]
    | cons b l' =>
      rw [← hl]
      exact List.mem_cons_of_mem a (ih a (by rw [hl]; simp))

/-- Invariant of the merge loop of _ensure_min_length over stripped
non-empty segments: every flushed segment is stripped and at least the
minimum long, the buffer is always stripped and below the minimum, and as
long as nothing was flushed the buffer holds at least the combined length
of the consumed segments. -/
theorem emlFold_inv (m : Nat) :
    ∀ (segs : List Str) (merged : List Str) (buffer : Str),
      (∀ s ∈ segs, s ≠ [] ∧ pyStrip s = s) →
      (∀ x ∈ merged, pyStrip x = x ∧ m ≤ x.length) →
      (buffer = [] ∨ (pyStrip buffer = buffer ∧ buffer.length < m)) →
      (∀ x ∈ (segs.foldl (emlStep m) (merged, buffer)).1, pyStrip x = x ∧ m ≤ x.length) ∧
      ((segs.foldl (emlStep m) (merged, buffer)).2 = [] ∨
        (pyStrip (segs.foldl (emlStep m) (merged, buffer)).2 =
            (segs.foldl (emlStep m) (merged, buffer)).2 ∧
          (segs.foldl (emlStep m) (merged, buffer)).2.length < m)) ∧
      ((segs.foldl (emlStep m) (merged, buffer)).1 = [] →
        merged = [] ∧ buffer.length + (segs.map List.length).sum ≤
          (segs.foldl (emlStep m) (merged, buffer)).2.length) := by
  intro segs
  induction segs with
  | nil =>
    intro merged buffer hsegs hm hb
    refine ⟨by simpa using hm, by simpa using hb, ?_⟩
    intro h1
    simp only [List.foldl_nil] at h1 ⊢
    exact ⟨h1, by simp⟩
  | cons a segs ih =>
    intro merged buffer hsegs hm hb
    have ha := hsegs a (List.mem_cons_self a segs)
    have hsegs' : ∀ s ∈ segs, s ≠ [] ∧ pyStrip s = s :=
      fun s hs => hsegs s (List.mem_cons_of_mem a hs)
    have hclean : pyStrip (emlBuf buffer a) = emlBuf buffer a :=
      emlBuf_clean buffer a (hb.imp id And.left) ha.1 ha.2
    rw [List.foldl_cons]
    by_cases hflush : m ≤ (emlBuf buffer a).length
    · have hstep : emlStep m (merged, buffer) a =
          (merged ++ [pyStrip (emlBuf buffer a)], []) := by
        unfold emlStep
        rw [if_pos hflush]
      rw [hstep]
      have hm' : ∀ x ∈ merged ++ [pyStrip (emlBuf buffer a)],
          pyStrip x = x ∧ m ≤ x.length := by
        intro x hx
        rcases List.mem_append.mp hx with hx | hx
        · exact hm x hx
        · have hxe : x = pyStrip (emlBuf buffer a) := by simpa using hx
          subst hxe
          refine ⟨pyStrip_idem _, ?_⟩
          rw [hclean]
          exact hflush
      obtain ⟨p1, p2, p3⟩ := ih (merged ++ [pyStrip (emlBuf buffer a)]) [] hsegs' hm'
        (Or.inl rfl)
      refine ⟨p1, p2, ?_⟩
      intro h1
      obtain ⟨hm0, _⟩ := p3 h1
      exact absurd hm0 (by simp)
    · have hstep : emlStep m (merged, buffer) a = (merged, emlBuf buffer a) := by
        unfold emlStep
        rw [if_neg hflush]
      rw [hstep]
      have hb' : emlBuf buffer a = [] ∨
          (pyStrip (emlBuf buffer a) = emlBuf buffer a ∧ (emlBuf buffer a).length < m) :=
        Or.inr ⟨hclean, by omega⟩
      obtain ⟨p1, p2, p3⟩ := ih merged (emlBuf buffer a) hsegs' hm hb'
      refine ⟨p1, p2, ?_⟩
      intro h1
      obtain ⟨hm0, hsum⟩ := p3 h1
      refine ⟨hm0, ?_⟩
      have hlb := emlBuf_len buffer a
      simp only [List.map_cons, List.sum_cons]
      omega

/-- Claim C8 counterexample: segments a-then-four-spaces and five b's with
minimum 5. The total length is 10, at least the minimum, yet the result is
the pair of segments a and bbbbb: the first buffer reaches length 5, is
flushed, and its strip shrinks it to the single character a, below the
minimum — the returned list has a segment shorter than the minimum even
though the total input is not short. -/
theorem ensure_min_length_short_segment :
    ensure_min_length [toCl "a    ", toCl "bbbbb"] 5 = [toCl "a", toCl "bbbbb"] ∧
    5 ≤ (([toCl "a    ", toCl "bbbbb"].map List.length).sum) ∧
    (toCl "a").length < 5 := by
  refine ⟨by decide, by decide, by decide⟩

/-- Claim C8 (amended): for a non-empty list of non-empty, already-stripped
segments, the claim holds with the boundary at the source's inclusive
comparison: when the total length is at most the minimum, exactly one
segment is produced; when the total exceeds the minimum, every returned
segment has length at least the minimum (the final undersized remainder is
merged into the previous flushed segment). The counterexample forces the
stripped-segments hypothesis: flushing strips the buffer, which can shrink
a whitespace-padded buffer below the minimum. -/
theorem ensure_min_length_min (segments : List Str) (m : Nat)
    (hne : segments ≠ [])
    (hclean : ∀ s ∈ segments, s ≠ [] ∧ pyStrip s = s) :
    ((segments.map List.length).sum ≤ m → (ensure_min_length segments m).length = 1) ∧
    (m < (segments.map List.length).sum →
      ∀ s ∈ ensure_min_length segments m, m ≤ s.length) := by
  constructor
  · intro hsum
    unfold ensure_min_length
    rw [if_neg hne, if_pos hsum]
    rfl
  · intro hsum
    unfold ensure_min_length
    rw [if_neg hne, if_neg (by omega)]
    obtain ⟨p1, p2, p3⟩ := emlFold_inv m segments [] [] hclean (by simp) (Or.inl rfl)
    intro s hs
    unfold emlFinish at hs
    by_cases h2 : (segments.foldl (emlStep m) ([], [])).2 = []
    · rw [if_neg (not_not_intro h2)] at hs
      exact (p1 s hs).2
    · rw [if_pos h2] at hs
      rcases p2 with h0 | ⟨hcl2, hlt2⟩
      · exact absurd h0 h2
      · by_cases h1 : (segments.foldl (emlStep m) ([], [])).1 = []
        · obtain ⟨_, hsum2⟩ := p3 h1
          simp at hsum2
          omega
        · rw [if_pos ⟨h1, hlt2⟩] at hs
          rcases List.mem_append.mp hs with hmem | hmem
          · exact (p1 s (List.dropLast_subset _ hmem)).2
          · have hx := getLastD_mem (segments.foldl (emlStep m) ([], [])).1 [] h1
            obtain ⟨hxcl, hxlen⟩ := p1 _ hx
            have hxne : (segments.foldl (emlStep m) ([], [])).1.getLastD [] ≠ [] := by
              intro he
              rw [he] at hxlen
              simp at hxlen
              omega
            have hse : s = pyStrip ((segments.foldl (emlStep m) ([], [])).1.getLastD []
                ++ '\n' :: '\n' :: (segments.foldl (emlStep m) ([], [])).2) := by
              simpa using hmem
            subst hse
            rw [clean_sep_append _ _ hxne h2 hxcl hcl2]
            simp only [List.length_append, List.length_cons]
            omega

/-- Witness for the amended claim C8 on a concrete clean segment list. -/
theorem ensure_min_length_min_witness :
    ([toCl "aaa", toCl "bb"] : List Str) ≠ [] ∧
    (∀ s ∈ ([toCl "aaa", toCl "bb"] : List Str), s ≠ [] ∧ pyStrip s = s) ∧
    ((([toCl "aaa", toCl "bb"].map List.length).sum ≤ 4 →
        (ensure_min_length [toCl "aaa", toCl "bb"] 4).length = 1) ∧
      (4 < ([toCl "aaa", toCl "bb"].map List.length).sum →
        ∀ s ∈ ensure_min_length [toCl "aaa", toCl "bb"] 4, 4 ≤ s.length)) :=
  ⟨by decide, by decide,
    ensure_min_length_min [toCl "aaa", toCl "bb"] 4 (by decide) (by decide)⟩
